import Mathlib

/-!
Verification of `scripts/fix-liquid-syntax.py`.

The script reads each file of a fixed list, applies four ordered textual
substitution rules to the whole content, and rewrites the file only when the
content changed.  Documents are modelled as `List Char`; each Python
`re.sub` call is modelled by a left-to-right scanner that, at every
position, either recognises the regex at that position (consuming the
leftmost match, exactly like `re.sub`) or advances one character.  The
scanners carry a fuel argument so that they are structurally recursive and
compute by `decide`/`rfl`; fuel `≥` the length of the input is always
sufficient, and we prove fuel-invariance below.

Python regex details reproduced here:
* `\w` is modelled as ASCII word characters (letters, digits, underscore);
  the documents being remediated are ASCII.
* ``` ```(\w*)\n(.*?)``` ``` (DOTALL): after the opening fence the language
  tag is the maximal word-character run which must be followed by a
  newline (backtracking cannot shorten the run, because a shorter run is
  followed by a word character), and the lazy body ends at the first
  following fence.
* `(\{\{\.[\w-]+\}\})`: the run of word/hyphen characters is maximal and
  must be followed by `}}`.
* `(\$\{\{[^}]+\}\})`: the `[^}]+` run stops at the first `}` which must be
  doubled; backtracking cannot help since any shorter run ends before a
  non-brace character.
* `(\{\{[A-Z]\w*:\s*[^}]+\}\})`: since `\s` matches no brace and `[^}]`
  matches every whitespace character, `\s*[^}]+` recognises exactly the
  nonempty runs of non-`}` characters, so it is modelled as one run.

Note on the source: the replacement string in `wrap_go_templates`
(line 28) is written as a Python f-string `f'{% raw %}\n...'`, which the
Python parser rejects (`SyntaxError: f-string: invalid syntax`), so the
script as committed cannot even be imported.  The intended literal is
evident from the source text and from the spec; `wrap_go_templates` below
models that intended replacement (raw marker line, the block verbatim,
endraw marker line).  Everything else is modelled directly from the code.
-/

namespace FixLiquid

/-- ASCII model of the Python regex class `\w`. -/
def isWordChar (c : Char) : Bool :=
  c.isAlpha || c.isDigit || c == '_'

/-- The class `[\w-]` of the inline rule. -/
def isWordHyphen (c : Char) : Bool :=
  isWordChar c || c == '-'

/-- The class `[A-Z]` of the struct-literal rule. -/
def isUpperAZ (c : Char) : Bool :=
  c.isUpper

/-- The class `[^}]`. -/
def notBrace (c : Char) : Bool :=
  c != '}'

/-- ASCII whitespace removed by Python `str.strip`. -/
def isPySpace (c : Char) : Bool :=
  c == ' ' || c == '\t' || c == '\n' || c == '\r' || c == '\x0b' || c == '\x0c'

/-- The backtick character (written via its code point). -/
def tick : Char := Char.ofNat 96

/-- A code fence: three backticks. -/
def fence : List Char := "```".toList

/-- The literal `{% raw %}`. -/
def rawOpen : List Char := "\x7b% raw %\x7d".toList

/-- The literal `{% endraw %}`. -/
def rawClose : List Char := "\x7b% endraw %\x7d".toList

/-- The literal `{{.`. -/
def openDot : List Char := "\x7b\x7b.".toList

/-- The literal `{{if`. -/
def openIf : List Char := "\x7b\x7bif".toList

/-- The literal `{{range`. -/
def openRange : List Char := "\x7b\x7brange".toList

/-- The literal `{{end}}`. -/
def endMark : List Char := "\x7b\x7bend\x7d\x7d".toList

/-- The literal `${{`. -/
def dOpen : List Char := "$\x7b\x7b".toList

/-- The literal `{{`. -/
def dblOpen : List Char := "\x7b\x7b".toList

/-- The literal `}}`. -/
def closeBB : List Char := "\x7d\x7d".toList

/-- Boolean prefix test on character lists. -/
def pfx : List Char → List Char → Bool
  | [], _ => true
  | _ :: _, [] => false
  | p :: ps, c :: cs => p == c && pfx ps cs

/-- Python's `pat in s`: does `pat` occur as a contiguous substring? -/
def containsSub (pat : List Char) : List Char → Bool
  | [] => pfx pat []
  | c :: cs => pfx pat (c :: cs) || containsSub pat cs

/-- Split at the leftmost occurrence of `pat`: returns the part before the
occurrence and the part after it. -/
def splitFirst (pat : List Char) : List Char → Option (List Char × List Char)
  | [] => if pfx pat [] then some ([], []) else none
  | c :: cs =>
    if pfx pat (c :: cs) then some ([], (c :: cs).drop pat.length)
    else
      match splitFirst pat cs with
      | some (a, b) => some (c :: a, b)
      | none => none

/-! Matchers: each one recognises its regex anchored at the head of the
input and returns the decomposed groups together with the rest of the
input. -/

/-- Anchored matcher for ``` ```(\w*)\n(.*?)``` ``` with DOTALL: returns
`(lang, code, rest)`. -/
def matchBlockAt (s : List Char) : Option (List Char × List Char × List Char) :=
  if pfx fence s then
    if pfx ['\n'] ((s.drop 3).dropWhile isWordChar) then
      match splitFirst fence (((s.drop 3).dropWhile isWordChar).drop 1) with
      | some (code, rest) => some ((s.drop 3).takeWhile isWordChar, code, rest)
      | none => none
    else none
  else none

/-- Anchored matcher for `\{\{\.[\w-]+\}\}`: returns the word part and the
rest. -/
def matchInlineAt (s : List Char) : Option (List Char × List Char) :=
  if pfx openDot s then
    if ((s.drop 3).takeWhile isWordHyphen).isEmpty then none
    else if pfx closeBB ((s.drop 3).dropWhile isWordHyphen) then
      some ((s.drop 3).takeWhile isWordHyphen,
        ((s.drop 3).dropWhile isWordHyphen).drop 2)
    else none
  else none

/-- Anchored matcher for `\$\{\{[^}]+\}\}`: returns the bracket content and
the rest. -/
def matchDollarAt (s : List Char) : Option (List Char × List Char) :=
  if pfx dOpen s then
    if ((s.drop 3).takeWhile notBrace).isEmpty then none
    else if pfx closeBB ((s.drop 3).dropWhile notBrace) then
      some ((s.drop 3).takeWhile notBrace, ((s.drop 3).dropWhile notBrace).drop 2)
    else none
  else none

/-- Anchored matcher for `\{\{[A-Z]\w*:\s*[^}]+\}\}`: returns the leading
capital, the identifier tail, the value part and the rest. -/
def matchStructAt (s : List Char) : Option (Char × List Char × List Char × List Char) :=
  if pfx dblOpen s then
    if (s.drop 2).isEmpty then none
    else
      if isUpperAZ ((s.drop 2).headD ' ') then
        if pfx [':'] (((s.drop 2).tail).dropWhile isWordChar) then
          if (((((s.drop 2).tail).dropWhile isWordChar).drop 1).takeWhile notBrace).isEmpty then
            none
          else if pfx closeBB (((((s.drop 2).tail).dropWhile isWordChar).drop 1).dropWhile notBrace) then
            some ((s.drop 2).headD ' ', ((s.drop 2).tail).takeWhile isWordChar,
              (((((s.drop 2).tail).dropWhile isWordChar).drop 1)).takeWhile notBrace,
              (((((s.drop 2).tail).dropWhile isWordChar).drop 1).dropWhile notBrace).drop 2)
          else none
        else none
      else none
  else none

/-! The four substitution rules. -/

/-- The matched text of a code block: fence, language tag, newline, body,
closing fence. -/
def blockText (lang code : List Char) : List Char :=
  fence ++ lang ++ '\n' :: (code ++ fence)

/-- Does a code block contain one of the Go-template markers? -/
def hasTplMarker (b : List Char) : Bool :=
  containsSub openDot b || containsSub openIf b || containsSub openRange b ||
    containsSub endMark b

/-- The conditional wrapping of a matched block: wrap in raw marker lines
when the block contains a template marker and is not already wrapped,
otherwise return it unchanged. -/
def wrapBlock (b : List Char) : List Char :=
  if hasTplMarker b && !containsSub rawOpen b then
    rawOpen ++ '\n' :: (b ++ '\n' :: rawClose)
  else b

/-- The replacement function of Pattern 1 (`wrap_go_templates` in the
script), applied to the matched groups. -/
def wrap_go_templates (lang code : List Char) : List Char :=
  wrapBlock (blockText lang code)

/-- Scanner for Pattern 1; fuel-structural version of `re.sub`. -/
def pattern1Go : Nat → List Char → List Char
  | 0, s => s
  | _ + 1, [] => []
  | fuel + 1, c :: cs =>
    match matchBlockAt (c :: cs) with
    | some (lang, code, rest) => wrap_go_templates lang code ++ pattern1Go fuel rest
    | none => c :: pattern1Go fuel cs

/-- Pattern 1: wrap fenced code blocks containing Go-template markers. -/
def pattern1 (s : List Char) : List Char :=
  pattern1Go s.length s

/-- An inline token `{{.w}}`. -/
def inlineTok (w : List Char) : List Char :=
  openDot ++ w ++ closeBB

/-- Scanner for the inline substitution applied to one line. -/
def pattern2Go : Nat → List Char → List Char
  | 0, s => s
  | _ + 1, [] => []
  | fuel + 1, c :: cs =>
    match matchInlineAt (c :: cs) with
    | some (w, rest) =>
      rawOpen ++ (inlineTok w ++ (rawClose ++ pattern2Go fuel rest))
    | none => c :: pattern2Go fuel cs

/-- The `re.sub` of the inline rule on a single line. -/
def pattern2Line (line : List Char) : List Char :=
  pattern2Go line.length line

/-- One iteration of the Pattern-2 loop body: skip lines holding a raw
marker or starting (after strip) with a fence; substitute on lines that
contain `{{.` and no fence; leave all other lines alone. -/
def processLine (line : List Char) : List Char :=
  if containsSub rawOpen line || containsSub rawClose line ||
      pfx fence (line.dropWhile isPySpace) then
    line
  else if containsSub openDot line && !containsSub fence line then
    pattern2Line line
  else line

/-- Pattern 2: split into lines, process each, rejoin with newlines. -/
def pattern2 (s : List Char) : List Char :=
  List.intercalate ['\n'] ((s.splitOn '\n').map processLine)

/-- A GitHub-Actions span `${{x}}`. -/
def dollarSpan (x : List Char) : List Char :=
  dOpen ++ x ++ closeBB

/-- Scanner for Pattern 3. -/
def pattern3Go : Nat → List Char → List Char
  | 0, s => s
  | _ + 1, [] => []
  | fuel + 1, c :: cs =>
    match matchDollarAt (c :: cs) with
    | some (x, rest) =>
      rawOpen ++ (dollarSpan x ++ (rawClose ++ pattern3Go fuel rest))
    | none => c :: pattern3Go fuel cs

/-- Pattern 3: wrap `${{ ... }}` spans across the whole document. -/
def pattern3 (s : List Char) : List Char :=
  pattern3Go s.length s

/-- A struct-literal span `{{Uw: v}}` (`v` holds the `\s*[^}]+` part). -/
def structSpan (u : Char) (w v : List Char) : List Char :=
  dblOpen ++ u :: (w ++ ':' :: (v ++ closeBB))

/-- Scanner for Pattern 4. -/
def pattern4Go : Nat → List Char → List Char
  | 0, s => s
  | _ + 1, [] => []
  | fuel + 1, c :: cs =>
    match matchStructAt (c :: cs) with
    | some (u, w, v, rest) =>
      rawOpen ++ (structSpan u w v ++ (rawClose ++ pattern4Go fuel rest))
    | none => c :: pattern4Go fuel cs

/-- Pattern 4: wrap `{{Key: value}}` struct literals across the whole
document. -/
def pattern4 (s : List Char) : List Char :=
  pattern4Go s.length s

/-- The full transformation of `fix_file`: the four rules in order, each
applied to the output of the previous one. -/
def fixContent (s : List Char) : List Char :=
  pattern4 (pattern3 (pattern2 (pattern1 s)))

/-! Occurrence scanners used to phrase the segment conditions of the
decomposition theorems. -/

/-- Does an inline token `{{.w}}` match start at the head of `s`? -/
def tokAt (s : List Char) : Bool :=
  (matchInlineAt s).isSome

/-- Does `s` contain an occurrence of an inline token `{{.w}}`? -/
def hasTok : List Char → Bool
  | [] => false
  | c :: cs => tokAt (c :: cs) || hasTok cs

/-- Does `s` start with `{{` followed by an uppercase letter (the gate of
the struct-literal rule)? -/
def uOpenAt (s : List Char) : Bool :=
  pfx dblOpen s && (!(s.drop 2).isEmpty && isUpperAZ ((s.drop 2).headD ' '))

/-- Does `s` contain `{{` followed by an uppercase letter? -/
def hasUOpen : List Char → Bool
  | [] => false
  | c :: cs => uOpenAt (c :: cs) || hasUOpen cs

/-- Does a code-block match start at some position of `s`? -/
def hasBlockMatch : List Char → Bool
  | [] => false
  | c :: cs => (matchBlockAt (c :: cs)).isSome || hasBlockMatch cs

/-! Interleavings of guard segments and matched spans, for the
decomposition theorems. -/

/-- Concatenate alternating (segment, span) pairs followed by a final
segment. -/
def glue (ps : List (List Char × List Char)) (last : List Char) : List Char :=
  ps.foldr (fun pr acc => pr.1 ++ (pr.2 ++ acc)) last

/-- Same as `glue` but with every span transformed by `f`. -/
def glueWith (f : List Char → List Char) (ps : List (List Char × List Char))
    (last : List Char) : List Char :=
  ps.foldr (fun pr acc => pr.1 ++ (f pr.2 ++ acc)) last

/-- The replacement of the inline, dollar and struct rules: the span
wrapped in raw markers. -/
def rawWrap (sp : List Char) : List Char :=
  rawOpen ++ (sp ++ rawClose)

/-! The whole of `fix_file`, including the change records built during the
inline rule, and the observable file effects. -/

/-- One iteration of the Pattern-2 loop body together with the change
records it appends (`i` is the 0-based line index; the record text uses the
1-based line number as in the script). -/
def processLineC (i : Nat) (line : List Char) : List Char × List String :=
  if containsSub rawOpen line || containsSub rawClose line ||
      pfx fence (line.dropWhile isPySpace) then
    (line, [])
  else if containsSub openDot line && !containsSub fence line then
    (pattern2Line line,
      if pattern2Line line ≠ line then
        ["Line " ++ toString (i + 1) ++ ": Wrapped Go template syntax"]
      else [])
  else (line, [])

/-- Pattern 2 with the accumulated change records. -/
def pattern2C (s : List Char) : List Char × List String :=
  (List.intercalate ['\n']
      (((s.splitOn '\n').enum.map fun pr => processLineC pr.1 pr.2).map Prod.fst),
    (((s.splitOn '\n').enum.map fun pr => processLineC pr.1 pr.2).map Prod.snd).flatten)

/-- The observable outcome of `fix_file` on one file: the return value, the
persisted content, the sequence of write effects, and the (unused) change
records. -/
structure FixResult where
  wrote : Bool
  text : List Char
  writes : List (List Char)
  changes : List String
deriving DecidableEq

/-- Model of `fix_file`: read the content, apply the four rules in order
(threading the change list exactly as the script does), write the result
back only if it differs from the original, and return whether a write
occurred. -/
def fix_file (content : List Char) : FixResult :=
  if pattern4 (pattern3 ((pattern2C (pattern1 content)).1)) ≠ content then
    { wrote := true
      text := pattern4 (pattern3 ((pattern2C (pattern1 content)).1))
      writes := [pattern4 (pattern3 ((pattern2C (pattern1 content)).1))]
      changes := (pattern2C (pattern1 content)).2 }
  else
    { wrote := false
      text := content
      writes := []
      changes := (pattern2C (pattern1 content)).2 }

/-- Variant of `fix_file` that omits the change-record construction. -/
def fix_file_plain (content : List Char) : Bool × List Char :=
  if fixContent content ≠ content then (true, fixContent content)
  else (false, content)

/-! Model of `main`: the hardcoded file list, the disk, and the per-file
processing with its console and file effects. -/

/-- The hardcoded relative paths of `files_to_fix` in `main`. -/
def files_to_fix : List String :=
  ["concepts/templates.md",
   "concepts/prompts.md",
   "packc/explanation/compilation.md",
   "packc/explanation/pack-format.md",
   "packc/how-to/compile-packs.md",
   "packc/reference/compile-prompt.md",
   "runtime/how-to/manage-state.md",
   "runtime/explanation/middleware-design.md",
   "runtime/explanation/state-management.md",
   "workflows/deployment-workflow.md",
   "workflows/development-workflow.md"]

/-- The documentation tree, keyed by the relative path under `docs`
(a missing file is `none`). -/
def Disk : Type := String → Option (List Char)

/-- Observable events of a run: file reads/writes and console messages
(`notFound` models the `File not found` message, which the script prints
with the absolute path). -/
inductive Ev where
  | readF : String → Ev
  | writeF : String → List Char → Ev
  | processing : String → Ev
  | fixedMsg : Ev
  | noChangeMsg : Ev
  | notFound : String → Ev
deriving DecidableEq

/-- Outcome of a run: final disk, event trace, and the fixed-file count. -/
structure RunRes where
  disk : Disk
  events : List Ev
  count : Nat

/-- One iteration of the `main` loop: existence check, then
read/transform/conditional-write via `fix_file`, with console messages. -/
def processOne (d : Disk) (p : String) : RunRes :=
  match d p with
  | some c =>
    if (fix_file c).wrote then
      { disk := fun q => if q = p then some (fix_file c).text else d q
        events := [Ev.processing p, Ev.readF p, Ev.writeF p (fix_file c).text,
          Ev.fixedMsg]
        count := 1 }
    else
      { disk := d
        events := [Ev.processing p, Ev.readF p, Ev.noChangeMsg]
        count := 0 }
  | none => { disk := d, events := [Ev.notFound p], count := 0 }

/-- Sequential processing of a list of paths, in order. -/
def processFiles : List String → Disk → RunRes
  | [], d => { disk := d, events := [], count := 0 }
  | p :: ps, d =>
    { disk := (processFiles ps (processOne d p).disk).disk
      events := (processOne d p).events ++ (processFiles ps (processOne d p).disk).events
      count := (processOne d p).count + (processFiles ps (processOne d p).disk).count }

/-- Model of `main`: process the hardcoded list against a disk. -/
def main (d : Disk) : RunRes :=
  processFiles files_to_fix d

/-! Basic lemmas about the text primitives. -/

theorem pfx_iff (p : List Char) : ∀ s, pfx p s = true ↔ ∃ t, s = p ++ t := by
  induction p with
  | nil =>
    intro s
    constructor
    · intro _; exact ⟨s, rfl⟩
    · intro _; rfl
  | cons a p ih =>
    intro s
    cases s with
    | nil =>
      simp only [pfx]
      constructor
      · intro h; cases h
      · rintro ⟨t, ht⟩; cases ht
    | cons c cs =>
      simp only [pfx, Bool.and_eq_true, beq_iff_eq]
      constructor
      · rintro ⟨rfl, h⟩
        obtain ⟨t, rfl⟩ := (ih cs).mp h
        exact ⟨t, rfl⟩
      · rintro ⟨t, ht⟩
        injection ht with h1 h2
        exact ⟨h1.symm, (ih cs).mpr ⟨t, h2⟩⟩

theorem pfx_append (p t : List Char) : pfx p (p ++ t) = true :=
  (pfx_iff p _).mpr ⟨t, rfl⟩

theorem containsSub_of_pfx {pat s : List Char} (h : pfx pat s = true) :
    containsSub pat s = true := by
  cases s with
  | nil => exact h
  | cons c cs => simp [containsSub, h]

theorem containsSub_tail {pat : List Char} {c : Char} {cs : List Char}
    (h : containsSub pat (c :: cs) = false) : containsSub pat cs = false := by
  simp only [containsSub, Bool.or_eq_false_iff] at h
  exact h.2

theorem containsSub_head {pat : List Char} {c : Char} {cs : List Char}
    (h : containsSub pat (c :: cs) = false) : pfx pat (c :: cs) = false := by
  simp only [containsSub, Bool.or_eq_false_iff] at h
  exact h.1

theorem containsSub_iff (pat : List Char) :
    ∀ s, containsSub pat s = true ↔ ∃ a b, s = a ++ (pat ++ b) := by
  intro s
  induction s with
  | nil =>
    simp only [containsSub]
    rw [pfx_iff]
    constructor
    · rintro ⟨t, ht⟩; exact ⟨[], t, ht⟩
    · rintro ⟨a, b, hab⟩
      rcases a with _ | ⟨x, a⟩
      · exact ⟨b, hab⟩
      · cases hab
  | cons c cs ih =>
    simp only [containsSub, Bool.or_eq_true]
    constructor
    · rintro (h | h)
      · obtain ⟨t, ht⟩ := (pfx_iff pat _).mp h
        exact ⟨[], t, ht⟩
      · obtain ⟨a, b, rfl⟩ := ih.mp h
        exact ⟨c :: a, b, rfl⟩
    · rintro ⟨a, b, hab⟩
      rcases a with _ | ⟨x, a⟩
      · exact Or.inl ((pfx_iff pat _).mpr ⟨b, hab⟩)
      · injection hab with h1 h2
        exact Or.inr (ih.mpr ⟨a, b, h2⟩)

theorem containsSub_append_left {pat : List Char} :
    ∀ {a b : List Char}, containsSub pat b = true → containsSub pat (a ++ b) = true := by
  intro a b h
  obtain ⟨x, y, rfl⟩ := (containsSub_iff pat b).mp h
  exact (containsSub_iff pat _).mpr ⟨a ++ x, y, by simp⟩

theorem splitFirst_eq_some (pat : List Char) :
    ∀ {s a b : List Char}, splitFirst pat s = some (a, b) → s = a ++ (pat ++ b) := by
  intro s
  induction s with
  | nil =>
    intro a b h
    simp only [splitFirst] at h
    rcases hp : pfx pat [] with _ | _ <;> rw [hp] at h
    · cases h
    · simp only [if_true, Option.some.injEq, Prod.mk.injEq] at h
      obtain ⟨t, ht⟩ := (pfx_iff pat []).mp hp
      rcases pat with _ | ⟨x, p⟩
      · simp [← h.1, ← h.2]
      · cases ht
  | cons c cs ih =>
    intro a b h
    simp only [splitFirst] at h
    rcases hp : pfx pat (c :: cs) with _ | _ <;> rw [hp] at h
    · simp only [Bool.false_eq_true, if_false] at h
      rcases hs : splitFirst pat cs with _ | ⟨a2, b2⟩ <;> rw [hs] at h
      · cases h
      · simp only [Option.some.injEq, Prod.mk.injEq] at h
        obtain ⟨rfl, rfl⟩ : c :: a2 = a ∧ b2 = b := h
        have := ih hs
        simp [this]
    · simp only [if_true, Option.some.injEq, Prod.mk.injEq] at h
      obtain ⟨t, ht⟩ := (pfx_iff pat _).mp hp
      rw [ht, List.drop_left] at h
      rw [← h.1, ← h.2, ht]
      simp

theorem splitFirst_len (pat : List Char) :
    ∀ {s a b : List Char}, splitFirst pat s = some (a, b) → b.length ≤ s.length := by
  intro s
  induction s with
  | nil =>
    intro a b h
    simp only [splitFirst] at h
    rcases hp : pfx pat [] with _ | _ <;> rw [hp] at h
    · cases h
    · simp only [if_true, Option.some.injEq, Prod.mk.injEq] at h
      simp [← h.2]
  | cons c cs ih =>
    intro a b h
    simp only [splitFirst] at h
    rcases hp : pfx pat (c :: cs) with _ | _ <;> rw [hp] at h
    · simp only [Bool.false_eq_true, if_false] at h
      rcases hs : splitFirst pat cs with _ | ⟨a2, b2⟩ <;> rw [hs] at h
      · cases h
      · simp only [Option.some.injEq, Prod.mk.injEq] at h
        have := ih hs
        rw [← h.2]
        exact Nat.le_succ_of_le this
    · simp only [if_true, Option.some.injEq, Prod.mk.injEq] at h
      rw [← h.2]
      simp [List.length_drop]

theorem splitFirst_none {pat : List Char} :
    ∀ {s : List Char}, containsSub pat s = false → splitFirst pat s = none := by
  intro s
  induction s with
  | nil =>
    intro h
    simp only [containsSub] at h
    simp [splitFirst, h]
  | cons c cs ih =>
    intro h
    have h1 := containsSub_head h
    have h2 := containsSub_tail h
    simp [splitFirst, h1, ih h2]

/-! Helpers for `takeWhile`/`dropWhile` over concatenations. -/

theorem twAll {p : Char → Bool} :
    ∀ {a : List Char}, (∀ c ∈ a, p c = true) →
      a.takeWhile p = a ∧ a.dropWhile p = [] := by
  intro a
  induction a with
  | nil => intro _; exact ⟨rfl, rfl⟩
  | cons c cs ih =>
    intro h
    have hc : p c = true := h c (by simp)
    have := ih fun x hx => h x (by simp [hx])
    simp [List.takeWhile_cons, List.dropWhile_cons, hc, this.1, this.2]

theorem twAppend {p : Char → Bool} :
    ∀ (a : List Char) (d : Char) (b : List Char),
      (∀ c ∈ a, p c = true) → p d = false →
      ((a ++ d :: b).takeWhile p = a ∧ (a ++ d :: b).dropWhile p = d :: b) := by
  intro a
  induction a with
  | nil =>
    intro d b _ hd
    simp [List.takeWhile_cons, List.dropWhile_cons, hd]
  | cons c cs ih =>
    intro d b h hd
    have hc : p c = true := h c (by simp)
    have hr := ih d b (fun x hx => h x (by simp [hx])) hd
    simp [List.takeWhile_cons, List.dropWhile_cons, hc, hr.1, hr.2]

theorem twSplit (p : Char → Bool) :
    ∀ (l : List Char), (∀ c ∈ l, p c = true) ∨
      ∃ a d b, l = a ++ d :: b ∧ (∀ c ∈ a, p c = true) ∧ p d = false := by
  intro l
  induction l with
  | nil => exact Or.inl (by simp)
  | cons c cs ih =>
    rcases hc : p c with _ | _
    · exact Or.inr ⟨[], c, cs, rfl, by simp, hc⟩
    · rcases ih with h | ⟨a, d, b, rfl, ha, hd⟩
      · refine Or.inl ?_
        intro x hx
        rcases List.mem_cons.mp hx with rfl | hx
        · exact hc
        · exact h x hx
      · refine Or.inr ⟨c :: a, d, b, rfl, ?_, hd⟩
        intro x hx
        rcases List.mem_cons.mp hx with rfl | hx
        · exact hc
        · exact ha x hx

/-! Decomposition lemmas: a successful anchored match determines the shape
of the input. -/

theorem matchBlockAt_some_eq {s lang code rest : List Char}
    (h : matchBlockAt s = some (lang, code, rest)) :
    s = blockText lang code ++ rest := by
  unfold matchBlockAt at h
  rcases hp : pfx fence s with _ | _ <;> rw [hp] at h
  · cases h
  · obtain ⟨t, rfl⟩ := (pfx_iff fence s).mp hp
    rw [List.drop_left' (by rfl : fence.length = 3)] at h
    simp only [if_true] at h
    rcases hn : pfx ['\n'] (t.dropWhile isWordChar) with _ | _ <;> rw [hn] at h
    · simp only [Bool.false_eq_true, if_false] at h
      cases h
    · simp only [if_true] at h
      obtain ⟨t3, hn2⟩ := (pfx_iff ['\n'] _).mp hn
      have ht3 : (t.dropWhile isWordChar).drop 1 = t3 := by
        rw [hn2]
        exact List.drop_left' (by rfl)
      rw [ht3] at h
      rcases hs : splitFirst fence t3 with _ | ⟨cd, rs⟩ <;> rw [hs] at h
      · cases h
      · simp only [Option.some.injEq, Prod.mk.injEq] at h
        obtain ⟨rfl, rfl, rfl⟩ := h
        have hsp := splitFirst_eq_some fence hs
        have h1 : t = t.takeWhile isWordChar ++ ('\n' :: (cd ++ (fence ++ rs))) := by
          conv_lhs => rw [← List.takeWhile_append_dropWhile isWordChar t]
          rw [hn2, hsp]
          rfl
        conv_lhs => rw [h1]
        simp [blockText, List.append_assoc]

theorem matchInlineAt_some_eq {s w rest : List Char}
    (h : matchInlineAt s = some (w, rest)) :
    (s = inlineTok w ++ rest ∧ w ≠ []) ∧ ∀ c ∈ w, isWordHyphen c = true := by
  refine ⟨?_, ?_⟩
  case refine_2 =>
    intro c hc
    unfold matchInlineAt at h
    rcases hp : pfx openDot s with _ | _ <;> rw [hp] at h
    · cases h
    · simp only [if_true] at h
      rcases he : ((s.drop 3).takeWhile isWordHyphen).isEmpty with _ | _ <;>
        rw [he] at h
      · rcases hc2 : pfx closeBB ((s.drop 3).dropWhile isWordHyphen) with _ | _ <;>
          rw [hc2] at h
        · cases h
        · simp only [if_true, Bool.false_eq_true, if_false, Option.some.injEq,
            Prod.mk.injEq] at h
          rw [← h.1] at hc
          exact List.mem_takeWhile_imp hc
      · simp at h
  unfold matchInlineAt at h
  rcases hp : pfx openDot s with _ | _ <;> rw [hp] at h
  · cases h
  · obtain ⟨t, rfl⟩ := (pfx_iff openDot s).mp hp
    rw [List.drop_left' (by rfl : openDot.length = 3)] at h
    simp only [if_true] at h
    rcases he : (t.takeWhile isWordHyphen).isEmpty with _ | _ <;> rw [he] at h
    · simp only [Bool.false_eq_true, if_false] at h
      rcases hc : pfx closeBB (t.dropWhile isWordHyphen) with _ | _ <;> rw [hc] at h
      · cases h
      · simp only [if_true, Option.some.injEq, Prod.mk.injEq] at h
        obtain ⟨rfl, rfl⟩ := h
        obtain ⟨u, hu⟩ := (pfx_iff closeBB _).mp hc
        have hdrop : (t.dropWhile isWordHyphen).drop 2 = u := by
          rw [hu]
          exact List.drop_left' (by rfl)
        refine ⟨?_, fun hnil => by rw [hnil] at he; simp at he⟩
        rw [hdrop]
        have h1 : t = t.takeWhile isWordHyphen ++ (closeBB ++ u) := by
          conv_lhs => rw [← List.takeWhile_append_dropWhile isWordHyphen t]
          rw [hu]
        conv_lhs => rw [h1]
        simp [inlineTok, List.append_assoc]
    · simp at h

theorem matchDollarAt_some_eq {s x rest : List Char}
    (h : matchDollarAt s = some (x, rest)) :
    s = dollarSpan x ++ rest ∧ x ≠ [] := by
  unfold matchDollarAt at h
  rcases hp : pfx dOpen s with _ | _ <;> rw [hp] at h
  · cases h
  · obtain ⟨t, rfl⟩ := (pfx_iff dOpen s).mp hp
    rw [List.drop_left' (by rfl : dOpen.length = 3)] at h
    simp only [if_true] at h
    rcases he : (t.takeWhile notBrace).isEmpty with _ | _ <;> rw [he] at h
    · simp only [Bool.false_eq_true, if_false] at h
      rcases hc : pfx closeBB (t.dropWhile notBrace) with _ | _ <;> rw [hc] at h
      · cases h
      · simp only [if_true, Option.some.injEq, Prod.mk.injEq] at h
        obtain ⟨rfl, rfl⟩ := h
        obtain ⟨u, hu⟩ := (pfx_iff closeBB _).mp hc
        have hdrop : (t.dropWhile notBrace).drop 2 = u := by
          rw [hu]
          exact List.drop_left' (by rfl)
        refine ⟨?_, fun hnil => by rw [hnil] at he; simp at he⟩
        rw [hdrop]
        have h1 : t = t.takeWhile notBrace ++ (closeBB ++ u) := by
          conv_lhs => rw [← List.takeWhile_append_dropWhile notBrace t]
          rw [hu]
        conv_lhs => rw [h1]
        simp [dollarSpan, List.append_assoc]
    · simp at h

theorem matchStructAt_some_eq {s : List Char} {u : Char} {w v rest : List Char}
    (h : matchStructAt s = some (u, w, v, rest)) :
    s = structSpan u w v ++ rest ∧ v ≠ [] ∧ isUpperAZ u = true := by
  unfold matchStructAt at h
  rcases hp : pfx dblOpen s with _ | _ <;> rw [hp] at h
  · cases h
  · obtain ⟨t0, rfl⟩ := (pfx_iff dblOpen s).mp hp
    rw [List.drop_left' (by rfl : dblOpen.length = 2)] at h
    rcases t0 with _ | ⟨u0, t⟩
    · simp only [if_true, List.isEmpty_nil] at h
      cases h
    · simp only [if_true, List.isEmpty_cons, List.headD_cons, List.tail_cons] at h
      rcases hup : isUpperAZ u0 with _ | _ <;> rw [hup] at h
      · simp only [Bool.false_eq_true, if_false] at h
        cases h
      · simp only [if_true] at h
        rcases hcol : pfx [':'] (t.dropWhile isWordChar) with _ | _ <;> rw [hcol] at h
        · simp only [Bool.false_eq_true, if_false] at h
          cases h
        · simp only [if_true] at h
          obtain ⟨r2, hr2⟩ := (pfx_iff [':'] _).mp hcol
          have hdrop1 : (t.dropWhile isWordChar).drop 1 = r2 := by
            rw [hr2]
            exact List.drop_left' (by rfl)
          rw [hdrop1] at h
          rcases he : (r2.takeWhile notBrace).isEmpty with _ | _ <;> rw [he] at h
          · simp only [Bool.false_eq_true, if_false] at h
            rcases hc : pfx closeBB (r2.dropWhile notBrace) with _ | _ <;> rw [hc] at h
            · cases h
            · simp only [if_true, Option.some.injEq, Prod.mk.injEq] at h
              obtain ⟨rfl, rfl, rfl, rfl⟩ := h
              obtain ⟨y, hy⟩ := (pfx_iff closeBB _).mp hc
              have hdrop2 : (r2.dropWhile notBrace).drop 2 = y := by
                rw [hy]
                exact List.drop_left' (by rfl)
              refine ⟨?_, fun hnil => by rw [hnil] at he; simp at he, hup⟩
              rw [hdrop2]
              have h2 : r2 = r2.takeWhile notBrace ++ (closeBB ++ y) := by
                conv_lhs => rw [← List.takeWhile_append_dropWhile notBrace r2]
                rw [hy]
              have h1 : t = t.takeWhile isWordChar ++ (':' :: r2) := by
                conv_lhs => rw [← List.takeWhile_append_dropWhile isWordChar t]
                rw [hr2]
                rfl
              conv_lhs => rw [h1, h2]
              simp [structSpan, List.append_assoc]
          · simp at h

/-! Length bounds on the rest of a match, for fuel invariance. -/

theorem matchBlockAt_rest_lt {s lang code rest : List Char}
    (h : matchBlockAt s = some (lang, code, rest)) : rest.length < s.length := by
  rw [matchBlockAt_some_eq h]
  simp only [blockText, List.length_append, List.length_cons,
    show fence.length = 3 from rfl]
  omega

theorem matchInlineAt_rest_lt {s w rest : List Char}
    (h : matchInlineAt s = some (w, rest)) : rest.length < s.length := by
  rw [(matchInlineAt_some_eq h).1.1]
  simp only [inlineTok, List.length_append, show openDot.length = 3 from rfl,
    show closeBB.length = 2 from rfl]
  omega

theorem matchDollarAt_rest_lt {s x rest : List Char}
    (h : matchDollarAt s = some (x, rest)) : rest.length < s.length := by
  rw [(matchDollarAt_some_eq h).1]
  simp only [dollarSpan, List.length_append, show dOpen.length = 3 from rfl,
    show closeBB.length = 2 from rfl]
  omega

theorem matchStructAt_rest_lt {s : List Char} {u : Char} {w v rest : List Char}
    (h : matchStructAt s = some (u, w, v, rest)) : rest.length < s.length := by
  rw [(matchStructAt_some_eq h).1]
  simp only [structSpan, List.length_append, List.length_cons,
    show dblOpen.length = 2 from rfl, show closeBB.length = 2 from rfl]
  omega

/-! Fuel invariance: any fuel at least the length of the input gives the
same result, so each scanner has a canonical fuel-free description. -/

theorem pattern1Go_nil : ∀ fuel, pattern1Go fuel [] = [] := by
  intro fuel
  cases fuel <;> rfl

theorem pattern2Go_nil : ∀ fuel, pattern2Go fuel [] = [] := by
  intro fuel
  cases fuel <;> rfl

theorem pattern3Go_nil : ∀ fuel, pattern3Go fuel [] = [] := by
  intro fuel
  cases fuel <;> rfl

theorem pattern4Go_nil : ∀ fuel, pattern4Go fuel [] = [] := by
  intro fuel
  cases fuel <;> rfl

theorem pattern1Go_fuel :
    ∀ (f1 : Nat) (s : List Char) (f2 : Nat), s.length ≤ f1 → s.length ≤ f2 →
      pattern1Go f1 s = pattern1Go f2 s := by
  intro f1
  induction f1 with
  | zero =>
    intro s f2 h1 _
    have hs : s = [] := List.eq_nil_of_length_eq_zero (Nat.le_zero.mp h1)
    subst hs
    rw [pattern1Go_nil, pattern1Go_nil]
  | succ n ih =>
    intro s f2 h1 h2
    cases s with
    | nil => rw [pattern1Go_nil, pattern1Go_nil]
    | cons c cs =>
      cases f2 with
      | zero => simp at h2
      | succ m =>
        simp only [pattern1Go]
        cases hm : matchBlockAt (c :: cs) with
        | none =>
          simp only [hm]
          rw [ih cs m (by simpa using h1) (by simpa using h2)]
        | some r =>
          obtain ⟨lang, code, rest⟩ := r
          simp only [hm]
          have hlt := matchBlockAt_rest_lt hm
          simp only [List.length_cons] at h1 h2 hlt
          rw [ih rest m (by omega) (by omega)]

theorem pattern2Go_fuel :
    ∀ (f1 : Nat) (s : List Char) (f2 : Nat), s.length ≤ f1 → s.length ≤ f2 →
      pattern2Go f1 s = pattern2Go f2 s := by
  intro f1
  induction f1 with
  | zero =>
    intro s f2 h1 _
    have hs : s = [] := List.eq_nil_of_length_eq_zero (Nat.le_zero.mp h1)
    subst hs
    rw [pattern2Go_nil, pattern2Go_nil]
  | succ n ih =>
    intro s f2 h1 h2
    cases s with
    | nil => rw [pattern2Go_nil, pattern2Go_nil]
    | cons c cs =>
      cases f2 with
      | zero => simp at h2
      | succ m =>
        simp only [pattern2Go]
        cases hm : matchInlineAt (c :: cs) with
        | none =>
          simp only [hm]
          rw [ih cs m (by simpa using h1) (by simpa using h2)]
        | some r =>
          obtain ⟨w, rest⟩ := r
          simp only [hm]
          have hlt := matchInlineAt_rest_lt hm
          simp only [List.length_cons] at h1 h2 hlt
          rw [ih rest m (by omega) (by omega)]

theorem pattern3Go_fuel :
    ∀ (f1 : Nat) (s : List Char) (f2 : Nat), s.length ≤ f1 → s.length ≤ f2 →
      pattern3Go f1 s = pattern3Go f2 s := by
  intro f1
  induction f1 with
  | zero =>
    intro s f2 h1 _
    have hs : s = [] := List.eq_nil_of_length_eq_zero (Nat.le_zero.mp h1)
    subst hs
    rw [pattern3Go_nil, pattern3Go_nil]
  | succ n ih =>
    intro s f2 h1 h2
    cases s with
    | nil => rw [pattern3Go_nil, pattern3Go_nil]
    | cons c cs =>
      cases f2 with
      | zero => simp at h2
      | succ m =>
        simp only [pattern3Go]
        cases hm : matchDollarAt (c :: cs) with
        | none =>
          simp only [hm]
          rw [ih cs m (by simpa using h1) (by simpa using h2)]
        | some r =>
          obtain ⟨x, rest⟩ := r
          simp only [hm]
          have hlt := matchDollarAt_rest_lt hm
          simp only [List.length_cons] at h1 h2 hlt
          rw [ih rest m (by omega) (by omega)]

theorem pattern4Go_fuel :
    ∀ (f1 : Nat) (s : List Char) (f2 : Nat), s.length ≤ f1 → s.length ≤ f2 →
      pattern4Go f1 s = pattern4Go f2 s := by
  intro f1
  induction f1 with
  | zero =>
    intro s f2 h1 _
    have hs : s = [] := List.eq_nil_of_length_eq_zero (Nat.le_zero.mp h1)
    subst hs
    rw [pattern4Go_nil, pattern4Go_nil]
  | succ n ih =>
    intro s f2 h1 h2
    cases s with
    | nil => rw [pattern4Go_nil, pattern4Go_nil]
    | cons c cs =>
      cases f2 with
      | zero => simp at h2
      | succ m =>
        simp only [pattern4Go]
        cases hm : matchStructAt (c :: cs) with
        | none =>
          simp only [hm]
          rw [ih cs m (by simpa using h1) (by simpa using h2)]
        | some r =>
          obtain ⟨u, w, v, rest⟩ := r
          simp only [hm]
          have hlt := matchStructAt_rest_lt hm
          simp only [List.length_cons] at h1 h2 hlt
          rw [ih rest m (by omega) (by omega)]

/-! Fuel-free equations for the canonical scanners. -/

theorem pattern1_nil : pattern1 [] = [] := rfl

theorem pattern1_cons_match {c : Char} {cs lang code rest : List Char}
    (hm : matchBlockAt (c :: cs) = some (lang, code, rest)) :
    pattern1 (c :: cs) = wrap_go_templates lang code ++ pattern1 rest := by
  have hlt := matchBlockAt_rest_lt hm
  simp only [List.length_cons] at hlt
  unfold pattern1
  simp only [List.length_cons, pattern1Go, hm]
  rw [pattern1Go_fuel cs.length rest rest.length (by omega) (le_refl _)]

theorem pattern1_cons_nomatch {c : Char} {cs : List Char}
    (hm : matchBlockAt (c :: cs) = none) :
    pattern1 (c :: cs) = c :: pattern1 cs := by
  unfold pattern1
  simp only [List.length_cons, pattern1Go, hm]

theorem pattern2Line_nil : pattern2Line [] = [] := rfl

theorem pattern2Line_cons_match {c : Char} {cs w rest : List Char}
    (hm : matchInlineAt (c :: cs) = some (w, rest)) :
    pattern2Line (c :: cs) =
      rawOpen ++ (inlineTok w ++ (rawClose ++ pattern2Line rest)) := by
  have hlt := matchInlineAt_rest_lt hm
  simp only [List.length_cons] at hlt
  unfold pattern2Line
  simp only [List.length_cons, pattern2Go, hm]
  rw [pattern2Go_fuel cs.length rest rest.length (by omega) (le_refl _)]

theorem pattern2Line_cons_nomatch {c : Char} {cs : List Char}
    (hm : matchInlineAt (c :: cs) = none) :
    pattern2Line (c :: cs) = c :: pattern2Line cs := by
  unfold pattern2Line
  simp only [List.length_cons, pattern2Go, hm]

theorem pattern3_nil : pattern3 [] = [] := rfl

theorem pattern3_cons_match {c : Char} {cs x rest : List Char}
    (hm : matchDollarAt (c :: cs) = some (x, rest)) :
    pattern3 (c :: cs) =
      rawOpen ++ (dollarSpan x ++ (rawClose ++ pattern3 rest)) := by
  have hlt := matchDollarAt_rest_lt hm
  simp only [List.length_cons] at hlt
  unfold pattern3
  simp only [List.length_cons, pattern3Go, hm]
  rw [pattern3Go_fuel cs.length rest rest.length (by omega) (le_refl _)]

theorem pattern3_cons_nomatch {c : Char} {cs : List Char}
    (hm : matchDollarAt (c :: cs) = none) :
    pattern3 (c :: cs) = c :: pattern3 cs := by
  unfold pattern3
  simp only [List.length_cons, pattern3Go, hm]

theorem pattern4_nil : pattern4 [] = [] := rfl

theorem pattern4_cons_match {c : Char} {cs : List Char} {u : Char} {w v rest : List Char}
    (hm : matchStructAt (c :: cs) = some (u, w, v, rest)) :
    pattern4 (c :: cs) =
      rawOpen ++ (structSpan u w v ++ (rawClose ++ pattern4 rest)) := by
  have hlt := matchStructAt_rest_lt hm
  simp only [List.length_cons] at hlt
  unfold pattern4
  simp only [List.length_cons, pattern4Go, hm]
  rw [pattern4Go_fuel cs.length rest rest.length (by omega) (le_refl _)]

theorem pattern4_cons_nomatch {c : Char} {cs : List Char}
    (hm : matchStructAt (c :: cs) = none) :
    pattern4 (c :: cs) = c :: pattern4 cs := by
  unfold pattern4
  simp only [List.length_cons, pattern4Go, hm]

/-! Explicit character-list forms of the pattern literals. -/

theorem fence_eq : fence = [tick, tick, tick] := by decide

theorem dOpen_eq : dOpen = ['$', '{', '{'] := by decide

theorem dblOpen_eq : dblOpen = ['{', '{'] := by decide

theorem openDot_eq : openDot = ['{', '{', '.'] := by decide

theorem closeBB_eq : closeBB = ['}', '}'] := by decide

/-! Scan-failure lemmas: a position strictly inside a guard segment never
starts a match, under the stated conditions on the segment. -/

theorem pfx_fence_pad (a X : List Char) (hne : a ≠ [])
    (hp : pfx fence (a ++ X) = true) : pfx fence (a ++ [tick, tick]) = true := by
  obtain ⟨r, hr⟩ := (pfx_iff fence _).mp hp
  rw [fence_eq] at hr
  apply (pfx_iff fence _).mpr
  rw [fence_eq]
  rcases a with _ | ⟨c1, a1⟩
  · exact absurd rfl hne
  · rcases a1 with _ | ⟨c2, a2⟩
    · simp only [List.cons_append, List.nil_append] at hr
      injection hr with h1 _
      exact ⟨[], by rw [h1]; rfl⟩
    · rcases a2 with _ | ⟨c3, a3⟩
      · simp only [List.cons_append, List.nil_append] at hr
        injection hr with h1 hr2
        injection hr2 with h2 _
        exact ⟨[tick], by rw [h1, h2]; rfl⟩
      · simp only [List.cons_append] at hr
        injection hr with h1 hr2
        injection hr2 with h2 hr3
        injection hr3 with h3 _
        exact ⟨a3 ++ [tick, tick], by rw [h1, h2, h3]; simp⟩

theorem pfx_dOpen_boundary (a X : List Char) (hne : a ≠ [])
    (hX : X = [] ∨ ∃ Y, X = '$' :: Y)
    (hp : pfx dOpen (a ++ X) = true) : containsSub dOpen a = true := by
  obtain ⟨r, hr⟩ := (pfx_iff dOpen _).mp hp
  rw [dOpen_eq] at hr
  rcases a with _ | ⟨c1, a1⟩
  · exact absurd rfl hne
  rcases a1 with _ | ⟨c2, a2⟩
  · simp only [List.cons_append, List.nil_append] at hr
    injection hr with h1 h2
    rcases hX with rfl | ⟨Y, rfl⟩
    · cases h2
    · injection h2 with h3 _
      exact absurd h3 (by decide)
  rcases a2 with _ | ⟨c3, a3⟩
  · simp only [List.cons_append, List.nil_append] at hr
    injection hr with h1 hr2
    injection hr2 with h2 hr3
    rcases hX with rfl | ⟨Y, rfl⟩
    · cases hr3
    · injection hr3 with h3 _
      exact absurd h3 (by decide)
  · simp only [List.cons_append] at hr
    injection hr with h1 hr2
    injection hr2 with h2 hr3
    injection hr3 with h3 _
    exact containsSub_of_pfx ((pfx_iff dOpen _).mpr ⟨a3, by rw [dOpen_eq, h1, h2, h3]; rfl⟩)

/-! Building a match at the head of a well-formed block or span. -/

theorem splitFirst_at (code : List Char) :
    ∀ (t : List Char), containsSub fence (code ++ [tick, tick]) = false →
      splitFirst fence (code ++ (fence ++ t)) = some (code, t) := by
  induction code with
  | nil =>
    intro t _
    show splitFirst fence (fence ++ t) = some ([], t)
    rw [fence_eq]
    simp only [List.cons_append, List.nil_append]
    simp only [splitFirst]
    rw [show pfx [tick, tick, tick] (tick :: tick :: tick :: t) = true from by
      simp [pfx]]
    simp only [if_true]
    rfl
  | cons c code' ih =>
    intro t h
    have hpf : pfx fence ((c :: code') ++ (fence ++ t)) = false := by
      rcases hq : pfx fence ((c :: code') ++ (fence ++ t)) with _ | _
      · rfl
      · have hpad := pfx_fence_pad (c :: code') (fence ++ t) (by simp) hq
        have := containsSub_of_pfx hpad
        rw [show (c :: code') ++ [tick, tick] = c :: (code' ++ [tick, tick]) from rfl] at this
        rw [show containsSub fence ((c :: code') ++ [tick, tick]) =
          containsSub fence (c :: (code' ++ [tick, tick])) from rfl] at h
        rw [this] at h
        cases h
    show splitFirst fence (c :: (code' ++ (fence ++ t))) = some (c :: code', t)
    unfold splitFirst
    rw [show pfx fence (c :: (code' ++ (fence ++ t))) = false from hpf]
    simp only [Bool.false_eq_true, if_false]
    rw [ih t (containsSub_tail h)]

theorem matchBlockAt_build {lang code X : List Char}
    (hlang : ∀ c ∈ lang, isWordChar c = true)
    (hcode : containsSub fence (code ++ [tick, tick]) = false) :
    matchBlockAt (blockText lang code ++ X) = some (lang, code, X) := by
  have harr : blockText lang code ++ X = fence ++ (lang ++ '\n' :: (code ++ (fence ++ X))) := by
    simp [blockText]
  rw [harr]
  unfold matchBlockAt
  rw [pfx_append]
  rw [List.drop_left' (by rfl : fence.length = 3)]
  have htw := twAppend lang '\n' (code ++ (fence ++ X)) hlang (by decide)
  rw [htw.1, htw.2]
  rw [show pfx ['\n'] ('\n' :: (code ++ (fence ++ X))) = true from by simp [pfx]]
  simp only [if_true]
  rw [show ('\n' :: (code ++ (fence ++ X))).drop 1 = code ++ (fence ++ X) from rfl]
  rw [splitFirst_at code X hcode]

theorem matchDollarAt_build {x X : List Char} (hx : x ≠ [])
    (hxb : ∀ c ∈ x, notBrace c = true) :
    matchDollarAt (dollarSpan x ++ X) = some (x, X) := by
  have harr : dollarSpan x ++ X = dOpen ++ (x ++ '}' :: ('}' :: X)) := by
    simp [dollarSpan, closeBB_eq]
  rw [harr]
  unfold matchDollarAt
  rw [pfx_append]
  rw [List.drop_left' (by rfl : dOpen.length = 3)]
  have htw := twAppend x '}' ('}' :: X) hxb (by decide)
  rw [htw.1, htw.2]
  have hxe : x.isEmpty = false := by
    cases x
    · exact absurd rfl hx
    · rfl
  rw [hxe]
  rw [show pfx closeBB ('}' :: ('}' :: X)) = true from by simp [closeBB_eq, pfx]]
  simp only [if_true, Bool.false_eq_true, if_false]
  rfl

theorem matchStructAt_build {u : Char} {w v X : List Char} (hu : isUpperAZ u = true)
    (hw : ∀ c ∈ w, isWordChar c = true) (hv : v ≠ [])
    (hvb : ∀ c ∈ v, notBrace c = true) :
    matchStructAt (structSpan u w v ++ X) = some (u, w, v, X) := by
  have harr : structSpan u w v ++ X = dblOpen ++ (u :: (w ++ ':' :: (v ++ '}' :: ('}' :: X)))) := by
    simp [structSpan, closeBB_eq]
  rw [harr]
  unfold matchStructAt
  rw [pfx_append]
  rw [List.drop_left' (by rfl : dblOpen.length = 2)]
  simp only [List.isEmpty_cons, List.headD_cons, List.tail_cons]
  rw [hu]
  have htw1 := twAppend w ':' (v ++ '}' :: ('}' :: X)) hw (by decide)
  rw [htw1.2]
  rw [show pfx [':'] (':' :: (v ++ '}' :: ('}' :: X))) = true from by simp [pfx]]
  simp only [if_true]
  rw [show ((':' :: (v ++ '}' :: ('}' :: X))).drop 1) = v ++ '}' :: ('}' :: X) from rfl]
  have htw2 := twAppend v '}' ('}' :: X) hvb (by decide)
  rw [htw2.1, htw2.2]
  have hve : v.isEmpty = false := by
    cases v
    · exact absurd rfl hv
    · rfl
  rw [hve]
  rw [show pfx closeBB ('}' :: ('}' :: X)) = true from by simp [closeBB_eq, pfx]]
  simp only [if_true, Bool.false_eq_true, if_false]
  rw [htw1.1]
  rfl

/-! Head-form match lemmas that do not need an explicit cons shape. -/

theorem pattern1_match {s lang code rest : List Char}
    (hm : matchBlockAt s = some (lang, code, rest)) :
    pattern1 s = wrap_go_templates lang code ++ pattern1 rest := by
  rcases s with _ | ⟨c, cs⟩
  · exfalso
    unfold matchBlockAt at hm
    rw [show pfx fence ([] : List Char) = false from by decide] at hm
    simp at hm
  · exact pattern1_cons_match hm

theorem pattern3_match {s x rest : List Char}
    (hm : matchDollarAt s = some (x, rest)) :
    pattern3 s = rawOpen ++ (dollarSpan x ++ (rawClose ++ pattern3 rest)) := by
  rcases s with _ | ⟨c, cs⟩
  · exfalso
    unfold matchDollarAt at hm
    rw [show pfx dOpen ([] : List Char) = false from by decide] at hm
    simp at hm
  · exact pattern3_cons_match hm

theorem pattern4_match {s : List Char} {u : Char} {w v rest : List Char}
    (hm : matchStructAt s = some (u, w, v, rest)) :
    pattern4 s = rawOpen ++ (structSpan u w v ++ (rawClose ++ pattern4 rest)) := by
  rcases s with _ | ⟨c, cs⟩
  · exfalso
    unfold matchStructAt at hm
    rw [show pfx dblOpen ([] : List Char) = false from by decide] at hm
    simp at hm
  · exact pattern4_cons_match hm

/-! Stepping over a guard segment: the scanners copy it verbatim. -/

theorem pattern1_seg :
    ∀ (seg X : List Char), containsSub fence (seg ++ [tick, tick]) = false →
      pattern1 (seg ++ X) = seg ++ pattern1 X := by
  intro seg
  induction seg with
  | nil => intro X _; simp
  | cons c seg' ih =>
    intro X h
    have hpf : pfx fence ((c :: seg') ++ X) = false := by
      rcases hq : pfx fence ((c :: seg') ++ X) with _ | _
      · rfl
      · have hpad := pfx_fence_pad (c :: seg') X (by simp) hq
        have hcs := containsSub_of_pfx hpad
        rw [show containsSub fence ((c :: seg') ++ [tick, tick]) =
          containsSub fence (c :: (seg' ++ [tick, tick])) from rfl] at h
        rw [show pfx fence ((c :: seg') ++ [tick, tick]) =
          pfx fence (c :: (seg' ++ [tick, tick])) from rfl] at hpad
        rw [containsSub_head h] at hpad
        cases hpad
    have hm : matchBlockAt (c :: (seg' ++ X)) = none := by
      unfold matchBlockAt
      rw [show pfx fence (c :: (seg' ++ X)) = false from hpf]
      simp
    rw [List.cons_append, pattern1_cons_nomatch hm,
      ih X (containsSub_tail (by
        rw [show containsSub fence (c :: (seg' ++ [tick, tick])) =
          containsSub fence ((c :: seg') ++ [tick, tick]) from rfl]
        exact h))]
    rfl

theorem pattern3_seg :
    ∀ (seg X : List Char), containsSub dOpen seg = false →
      (X = [] ∨ ∃ Y, X = '$' :: Y) → pattern3 (seg ++ X) = seg ++ pattern3 X := by
  intro seg
  induction seg with
  | nil => intro X _ _; simp
  | cons c seg' ih =>
    intro X h hX
    have hpf : pfx dOpen ((c :: seg') ++ X) = false := by
      rcases hq : pfx dOpen ((c :: seg') ++ X) with _ | _
      · rfl
      · have := pfx_dOpen_boundary (c :: seg') X (by simp) hX hq
        rw [this] at h
        cases h
    have hm : matchDollarAt (c :: (seg' ++ X)) = none := by
      unfold matchDollarAt
      rw [show pfx dOpen (c :: (seg' ++ X)) = false from hpf]
      simp
    rw [List.cons_append, pattern3_cons_nomatch hm, ih X (containsSub_tail h) hX]
    rfl

theorem pattern3_iter (x : List Char) (X : List Char) (hx : x ≠ [])
    (hxb : ∀ c ∈ x, notBrace c = true) :
    pattern3 (dollarSpan x ++ X) =
      rawOpen ++ (dollarSpan x ++ (rawClose ++ pattern3 X)) :=
  pattern3_match (matchDollarAt_build hx hxb)

theorem pattern1_iter (lang code X : List Char)
    (hlang : ∀ c ∈ lang, isWordChar c = true)
    (hcode : containsSub fence (code ++ [tick, tick]) = false) :
    pattern1 (blockText lang code ++ X) = wrap_go_templates lang code ++ pattern1 X :=
  pattern1_match (matchBlockAt_build hlang hcode)

theorem pattern4_iter (u : Char) (w v X : List Char) (hu : isUpperAZ u = true)
    (hw : ∀ c ∈ w, isWordChar c = true) (hv : v ≠ [])
    (hvb : ∀ c ∈ v, notBrace c = true) :
    pattern4 (structSpan u w v ++ X) =
      rawOpen ++ (structSpan u w v ++ (rawClose ++ pattern4 X)) :=
  pattern4_match (matchStructAt_build hu hw hv hvb)

/-! The inline rule: boundary analysis.  A failed inline match at a
position is still failed when text starting with `{{` (such as a further
token) is appended; together with token-freeness of a segment this lets
the scanner step over the segment verbatim. -/

theorem pfx_closeBB_boundary (d : Char) (b0 X : List Char)
    (hX : X = [] ∨ ∃ Y, X = '{' :: ('{' :: Y))
    (h : pfx closeBB (d :: b0) = false) : pfx closeBB (d :: (b0 ++ X)) = false := by
  rw [closeBB_eq] at h ⊢
  simp only [pfx] at h ⊢
  rcases hde : ('}' == d) with _ | _
  · simp
  · rw [hde] at h
    simp only [Bool.true_and] at h ⊢
    rcases b0 with _ | ⟨e, b1⟩
    · rcases hX with rfl | ⟨Y, rfl⟩
      · exact h
      · simp [pfx]
    · simp only [List.cons_append]
      simp only [pfx, Bool.and_true] at h ⊢
      exact h

theorem matchInlineAt_none_append (a X : List Char) (hne : a ≠ [])
    (hX : X = [] ∨ ∃ Y, X = '{' :: ('{' :: Y))
    (hnone : matchInlineAt a = none) : matchInlineAt (a ++ X) = none := by
  rcases hp : pfx openDot (a ++ X) with _ | _
  · unfold matchInlineAt
    rw [hp]
    simp
  · obtain ⟨r, hr⟩ := (pfx_iff openDot _).mp hp
    rw [openDot_eq] at hr
    rcases a with _ | ⟨c1, a1⟩
    · exact absurd rfl hne
    rcases a1 with _ | ⟨c2, a2⟩
    · exfalso
      simp only [List.cons_append, List.nil_append] at hr
      injection hr with h1 h2
      rcases hX with rfl | ⟨Y, rfl⟩
      · cases h2
      · injection h2 with h3 h4
        injection h4 with h5 _
        exact absurd h5 (by decide)
    rcases a2 with _ | ⟨c3, a3⟩
    · exfalso
      simp only [List.cons_append, List.nil_append] at hr
      injection hr with h1 hr2
      injection hr2 with h2 h3
      rcases hX with rfl | ⟨Y, rfl⟩
      · cases h3
      · injection h3 with h4 _
        exact absurd h4 (by decide)
    · simp only [List.cons_append] at hr
      injection hr with h1 hr2
      injection hr2 with h2 hr3
      injection hr3 with h3 hr4
      subst h1
      subst h2
      subst h3
      have hpa : pfx openDot ('{' :: ('{' :: ('.' :: a3))) = true := by
        rw [openDot_eq]
        simp [pfx]
      unfold matchInlineAt at hnone
      rw [hpa] at hnone
      simp only [if_true] at hnone
      rw [show (('{' :: ('{' :: ('.' :: a3))).drop 3) = a3 from rfl] at hnone
      unfold matchInlineAt
      rw [show ('{' :: ('{' :: ('.' :: a3))) ++ X = '{' :: ('{' :: ('.' :: (a3 ++ X)))
        from by simp] at hp ⊢
      rw [hp]
      simp only [if_true]
      rw [show (('{' :: ('{' :: ('.' :: (a3 ++ X)))).drop 3) = a3 ++ X from rfl]
      rcases twSplit isWordHyphen a3 with hall | ⟨w0, d, b0, rfl, hw0, hd⟩
      · have htwA := twAll hall
        rcases hX with rfl | ⟨Y, rfl⟩
        · rw [List.append_nil]
          exact hnone
        · have htwB := twAppend a3 '{' ('{' :: Y) hall (by decide)
          rw [htwB.1, htwB.2]
          rw [htwA.1, htwA.2] at hnone
          rcases he : a3.isEmpty with _ | _
          · simp only [Bool.false_eq_true, if_false]
            rw [show pfx closeBB ('{' :: ('{' :: Y)) = false from by
              simp [closeBB_eq, pfx]]
            simp
          · simp
      · have htwA := twAppend w0 d b0 hw0 hd
        rw [htwA.1, htwA.2] at hnone
        rw [show (w0 ++ d :: b0) ++ X = w0 ++ d :: (b0 ++ X) from by simp]
        have htwB := twAppend w0 d (b0 ++ X) hw0 hd
        rw [htwB.1, htwB.2]
        rcases he : w0.isEmpty with _ | _
        · rw [he] at hnone
          simp only [Bool.false_eq_true, if_false] at hnone ⊢
          rcases hcb : pfx closeBB (d :: b0) with _ | _
          · rw [pfx_closeBB_boundary d b0 X hX hcb]
            simp
          · rw [hcb] at hnone
            simp at hnone
        · simp

theorem pattern2Line_seg :
    ∀ (seg X : List Char), hasTok seg = false →
      (X = [] ∨ ∃ Y, X = '{' :: ('{' :: Y)) →
      pattern2Line (seg ++ X) = seg ++ pattern2Line X := by
  intro seg
  induction seg with
  | nil => intro X _ _; simp
  | cons c seg' ih =>
    intro X h hX
    have h1 : tokAt (c :: seg') = false ∧ hasTok seg' = false := by
      simp only [hasTok, Bool.or_eq_false_iff] at h
      exact h
    have hmn : matchInlineAt (c :: seg') = none := by
      rcases hm2 : matchInlineAt (c :: seg') with _ | r
      · rfl
      · exfalso
        have hT : tokAt (c :: seg') = true := by simp [tokAt, hm2]
        rw [hT] at h1
        exact Bool.noConfusion h1.1
    have hbd := matchInlineAt_none_append (c :: seg') X (by simp) hX hmn
    rw [show (c :: seg') ++ X = c :: (seg' ++ X) from rfl] at hbd
    rw [List.cons_append, pattern2Line_cons_nomatch hbd, ih X h1.2 hX]
    rfl

theorem matchInlineAt_build {w X : List Char} (hw : w ≠ [])
    (hwh : ∀ c ∈ w, isWordHyphen c = true) :
    matchInlineAt (inlineTok w ++ X) = some (w, X) := by
  have harr : inlineTok w ++ X = openDot ++ (w ++ '}' :: ('}' :: X)) := by
    simp [inlineTok, closeBB_eq]
  rw [harr]
  unfold matchInlineAt
  rw [pfx_append]
  rw [List.drop_left' (by rfl : openDot.length = 3)]
  have htw := twAppend w '}' ('}' :: X) hwh (by decide)
  rw [htw.1, htw.2]
  have hwe : w.isEmpty = false := by
    cases w
    · exact absurd rfl hw
    · rfl
  rw [hwe]
  rw [show pfx closeBB ('}' :: ('}' :: X)) = true from by simp [closeBB_eq, pfx]]
  simp only [if_true, Bool.false_eq_true, if_false]
  rfl

theorem pattern2Line_match {s w rest : List Char}
    (hm : matchInlineAt s = some (w, rest)) :
    pattern2Line s = rawOpen ++ (inlineTok w ++ (rawClose ++ pattern2Line rest)) := by
  rcases s with _ | ⟨c, cs⟩
  · exfalso
    unfold matchInlineAt at hm
    rw [show pfx openDot ([] : List Char) = false from by decide] at hm
    simp at hm
  · exact pattern2Line_cons_match hm

theorem pattern2_iter (w X : List Char) (hw : w ≠ [])
    (hwh : ∀ c ∈ w, isWordHyphen c = true) :
    pattern2Line (inlineTok w ++ X) =
      rawOpen ++ (inlineTok w ++ (rawClose ++ pattern2Line X)) :=
  pattern2Line_match (matchInlineAt_build hw hwh)

/-! A characterisation of `hasTok`: it detects exactly the occurrences of
an inline token `{{.w}}` as a substring. -/

theorem tokAt_iff (s : List Char) :
    tokAt s = true ↔
      ∃ w rest, w ≠ [] ∧ (∀ c ∈ w, isWordHyphen c = true) ∧
        s = inlineTok w ++ rest := by
  constructor
  · intro h
    simp only [tokAt] at h
    rcases hm : matchInlineAt s with _ | ⟨w, rest⟩
    · rw [hm] at h
      cases h
    · obtain ⟨⟨heq, hne⟩, hwh⟩ := matchInlineAt_some_eq hm
      exact ⟨w, rest, hne, hwh, heq⟩
  · rintro ⟨w, rest, hne, hwh, rfl⟩
    simp [tokAt, matchInlineAt_build hne hwh]

theorem hasTok_iff (s : List Char) :
    hasTok s = true ↔
      ∃ a w b, w ≠ [] ∧ (∀ c ∈ w, isWordHyphen c = true) ∧
        s = a ++ (inlineTok w ++ b) := by
  induction s with
  | nil =>
    simp only [hasTok]
    constructor
    · intro h
      cases h
    · rintro ⟨a, w, b, hne, hwh, habs⟩
      rcases a with _ | ⟨x, a1⟩
      · rw [List.nil_append] at habs
        have : inlineTok w ≠ [] := by simp [inlineTok, openDot_eq]
        exact absurd (List.append_eq_nil.mp habs.symm).1 this
      · cases habs
  | cons c cs ih =>
    simp only [hasTok, Bool.or_eq_true]
    constructor
    · rintro (h | h)
      · obtain ⟨w, rest, hne, hwh, heq⟩ := (tokAt_iff _).mp h
        exact ⟨[], w, rest, hne, hwh, by simp [heq]⟩
      · obtain ⟨a, w, b, hne, hwh, heq⟩ := ih.mp h
        exact ⟨c :: a, w, b, hne, hwh, by simp [heq]⟩
    · rintro ⟨a, w, b, hne, hwh, heq⟩
      rcases a with _ | ⟨x, a1⟩
      · left
        apply (tokAt_iff _).mpr
        exact ⟨w, b, hne, hwh, by simpa using heq⟩
      · right
        apply ih.mpr
        injection heq with _ h2
        exact ⟨a1, w, b, hne, hwh, h2⟩

/-! The struct-literal rule: stepping over a segment without a `{{`+upper
opener. -/

theorem matchStructAt_none_of_uOpen {s : List Char} (h : uOpenAt s = false) :
    matchStructAt s = none := by
  unfold uOpenAt at h
  unfold matchStructAt
  rcases hp : pfx dblOpen s with _ | _
  · simp
  · rw [hp] at h
    simp only [Bool.true_and] at h
    rcases he : (s.drop 2).isEmpty with _ | _
    · rw [he] at h
      simp only [Bool.not_false, Bool.true_and] at h
      rw [h]
      simp
    · simp

theorem uOpenAt_boundary (a X : List Char) (hne : a ≠ [])
    (hX : X = [] ∨ ∃ Y, X = '{' :: ('{' :: Y))
    (hu : uOpenAt (a ++ X) = true) : uOpenAt a = true := by
  unfold uOpenAt at hu
  simp only [Bool.and_eq_true] at hu
  obtain ⟨hp, hrest⟩ := hu
  obtain ⟨r, hr⟩ := (pfx_iff dblOpen _).mp hp
  rw [dblOpen_eq] at hr
  rcases a with _ | ⟨c1, a1⟩
  · exact absurd rfl hne
  rcases a1 with _ | ⟨c2, a2⟩
  · exfalso
    simp only [List.cons_append, List.nil_append] at hr
    injection hr with h1 h2
    rcases hX with rfl | ⟨Y, rfl⟩
    · cases h2
    · have h6 : isUpperAZ '{' = true := hrest.2
      exact absurd h6 (by decide)
  rcases a2 with _ | ⟨u0, a3⟩
  · exfalso
    simp only [List.cons_append, List.nil_append] at hr
    injection hr with h1 hr2
    injection hr2 with h2 h3
    rcases hX with rfl | ⟨Y, rfl⟩
    · have h6 : (false : Bool) = true := hrest.1
      exact Bool.noConfusion h6
    · have h6 : isUpperAZ '{' = true := hrest.2
      exact absurd h6 (by decide)
  · simp only [List.cons_append] at hr
    injection hr with h1 hr2
    injection hr2 with h2 hr3
    subst h1
    subst h2
    unfold uOpenAt
    rw [dblOpen_eq]
    simp only [Bool.and_eq_true]
    refine ⟨by simp [pfx], ?_, ?_⟩
    · rfl
    · exact hrest.2

theorem pattern4_seg :
    ∀ (seg X : List Char), hasUOpen seg = false →
      (X = [] ∨ ∃ Y, X = '{' :: ('{' :: Y)) →
      pattern4 (seg ++ X) = seg ++ pattern4 X := by
  intro seg
  induction seg with
  | nil => intro X _ _; simp
  | cons c seg' ih =>
    intro X h hX
    have h1 : uOpenAt (c :: seg') = false ∧ hasUOpen seg' = false := by
      simp only [hasUOpen, Bool.or_eq_false_iff] at h
      exact h
    have hub : uOpenAt ((c :: seg') ++ X) = false := by
      rcases hq : uOpenAt ((c :: seg') ++ X) with _ | _
      · rfl
      · have := uOpenAt_boundary (c :: seg') X (by simp) hX hq
        rw [this] at h1
        exact Bool.noConfusion h1.1
    have hm : matchStructAt (c :: (seg' ++ X)) = none :=
      matchStructAt_none_of_uOpen (by
        rw [show (c : Char) :: (seg' ++ X) = (c :: seg') ++ X from rfl]
        exact hub)
    rw [List.cons_append, pattern4_cons_nomatch hm, ih X h1.2 hX]
    rfl

/-! Decomposition theorems: on a document that interleaves guard segments
with well-formed spans, each rule wraps exactly the qualifying spans and
copies everything else verbatim. -/

theorem pattern1_glue :
    ∀ (ps : List (List Char × List Char)) (last : List Char),
      (∀ pr ∈ ps, containsSub fence (pr.1 ++ [tick, tick]) = false ∧
        ∃ lang code, (∀ c ∈ lang, isWordChar c = true) ∧
          containsSub fence (code ++ [tick, tick]) = false ∧
          pr.2 = blockText lang code) →
      containsSub fence (last ++ [tick, tick]) = false →
      pattern1 (glue ps last) = glueWith wrapBlock ps last := by
  intro ps
  induction ps with
  | nil =>
    intro last _ hlast
    show pattern1 last = last
    have h := pattern1_seg last [] hlast
    simpa [pattern1_nil] using h
  | cons pr ps' ih =>
    intro last hps hlast
    obtain ⟨hseg, lang, code, hlang, hcode, hblk⟩ := hps pr (by simp)
    show pattern1 (pr.1 ++ (pr.2 ++ glue ps' last)) =
      pr.1 ++ (wrapBlock pr.2 ++ glueWith wrapBlock ps' last)
    rw [pattern1_seg pr.1 (pr.2 ++ glue ps' last) hseg, hblk,
      pattern1_iter lang code (glue ps' last) hlang hcode,
      ih last (fun q hq => hps q (by simp [hq])) hlast]
    rfl

theorem pattern3_glue :
    ∀ (ps : List (List Char × List Char)) (last : List Char),
      (∀ pr ∈ ps, containsSub dOpen pr.1 = false ∧
        ∃ x, x ≠ [] ∧ (∀ c ∈ x, notBrace c = true) ∧ pr.2 = dollarSpan x) →
      containsSub dOpen last = false →
      pattern3 (glue ps last) = glueWith rawWrap ps last := by
  intro ps
  induction ps with
  | nil =>
    intro last _ hlast
    show pattern3 last = last
    have h := pattern3_seg last [] hlast (Or.inl rfl)
    simpa [pattern3_nil] using h
  | cons pr ps' ih =>
    intro last hps hlast
    obtain ⟨hseg, x, hx, hxb, hsp⟩ := hps pr (by simp)
    show pattern3 (pr.1 ++ (pr.2 ++ glue ps' last)) =
      pr.1 ++ (rawWrap pr.2 ++ glueWith rawWrap ps' last)
    rw [pattern3_seg pr.1 (pr.2 ++ glue ps' last) hseg
        (Or.inr ⟨('{' :: ('{' :: (x ++ closeBB))) ++ glue ps' last, by
          rw [hsp]
          simp [dollarSpan, dOpen_eq]⟩),
      hsp, pattern3_iter x (glue ps' last) hx hxb,
      ih last (fun q hq => hps q (by simp [hq])) hlast]
    simp [rawWrap, List.append_assoc]

theorem pattern4_glue :
    ∀ (ps : List (List Char × List Char)) (last : List Char),
      (∀ pr ∈ ps, hasUOpen pr.1 = false ∧
        ∃ u w v, isUpperAZ u = true ∧ (∀ c ∈ w, isWordChar c = true) ∧
          v ≠ [] ∧ (∀ c ∈ v, notBrace c = true) ∧ pr.2 = structSpan u w v) →
      hasUOpen last = false →
      pattern4 (glue ps last) = glueWith rawWrap ps last := by
  intro ps
  induction ps with
  | nil =>
    intro last _ hlast
    show pattern4 last = last
    have h := pattern4_seg last [] hlast (Or.inl rfl)
    simpa [pattern4_nil] using h
  | cons pr ps' ih =>
    intro last hps hlast
    obtain ⟨hseg, u, w, v, hu, hw, hv, hvb, hsp⟩ := hps pr (by simp)
    show pattern4 (pr.1 ++ (pr.2 ++ glue ps' last)) =
      pr.1 ++ (rawWrap pr.2 ++ glueWith rawWrap ps' last)
    rw [pattern4_seg pr.1 (pr.2 ++ glue ps' last) hseg
        (Or.inr ⟨(u :: (w ++ ':' :: (v ++ closeBB))) ++ glue ps' last, by
          rw [hsp]
          simp [structSpan, dblOpen_eq]⟩),
      hsp, pattern4_iter u w v (glue ps' last) hu hw hv hvb,
      ih last (fun q hq => hps q (by simp [hq])) hlast]
    simp [rawWrap, List.append_assoc]

theorem pattern2Line_glue :
    ∀ (ps : List (List Char × List Char)) (last : List Char),
      (∀ pr ∈ ps, hasTok pr.1 = false ∧
        ∃ w, w ≠ [] ∧ (∀ c ∈ w, isWordHyphen c = true) ∧ pr.2 = inlineTok w) →
      hasTok last = false →
      pattern2Line (glue ps last) = glueWith rawWrap ps last := by
  intro ps
  induction ps with
  | nil =>
    intro last _ hlast
    show pattern2Line last = last
    have h := pattern2Line_seg last [] hlast (Or.inl rfl)
    simpa [pattern2Line_nil] using h
  | cons pr ps' ih =>
    intro last hps hlast
    obtain ⟨hseg, w, hw, hwh, htk⟩ := hps pr (by simp)
    show pattern2Line (pr.1 ++ (pr.2 ++ glue ps' last)) =
      pr.1 ++ (rawWrap pr.2 ++ glueWith rawWrap ps' last)
    rw [pattern2Line_seg pr.1 (pr.2 ++ glue ps' last) hseg
        (Or.inr ⟨('.' :: (w ++ closeBB)) ++ glue ps' last, by
          rw [htk]
          simp [inlineTok, openDot_eq]⟩),
      htk, pattern2_iter w (glue ps' last) hw hwh,
      ih last (fun q hq => hps q (by simp [hq])) hlast]
    simp [rawWrap, List.append_assoc]

/-! Pattern 1 on a document with no block match anywhere is the
identity. -/

theorem matchBlockAt_none_of_pfx {s : List Char} (h : pfx fence s = false) :
    matchBlockAt s = none := by
  unfold matchBlockAt
  rw [h]
  simp

theorem pattern1_copy :
    ∀ (s : List Char), hasBlockMatch s = false → pattern1 s = s := by
  intro s
  induction s with
  | nil => intro _; rfl
  | cons c cs ih =>
    intro h
    simp only [hasBlockMatch, Bool.or_eq_false_iff] at h
    have hm : matchBlockAt (c :: cs) = none := by
      rcases hq : matchBlockAt (c :: cs) with _ | r
      · rfl
      · rw [hq] at h
        exact absurd h.1 (by simp)
    rw [pattern1_cons_nomatch hm, ih h.2]

theorem containsSub_fence_of_tickless :
    ∀ {s : List Char}, tick ∉ s → containsSub fence s = false := by
  intro s
  induction s with
  | nil => intro _; rfl
  | cons c cs ih =>
    intro h
    have hc : c ≠ tick := fun he => h (he ▸ List.mem_cons_self c cs)
    have hpf : pfx fence (c :: cs) = false := by
      rcases hq : pfx fence (c :: cs) with _ | _
      · rfl
      · obtain ⟨r, hr⟩ := (pfx_iff fence _).mp hq
        rw [fence_eq] at hr
        injection hr with h1 _
        exact absurd h1 hc
    simp only [containsSub, hpf, Bool.false_or]
    exact ih fun hm => h (List.mem_cons_of_mem c hm)

theorem hbm_tickless_append :
    ∀ {s : List Char} (X : List Char), tick ∉ s →
      hasBlockMatch (s ++ X) = hasBlockMatch X := by
  intro s
  induction s with
  | nil => intro X _; rfl
  | cons c cs ih =>
    intro X h
    have hc : c ≠ tick := fun he => h (he ▸ List.mem_cons_self c cs)
    have hpf : pfx fence ((c :: cs) ++ X) = false := by
      rcases hq : pfx fence ((c :: cs) ++ X) with _ | _
      · rfl
      · obtain ⟨r, hr⟩ := (pfx_iff fence _).mp hq
        rw [fence_eq] at hr
        injection hr with h1 _
        exact absurd h1 hc
    show ((matchBlockAt (c :: (cs ++ X))).isSome || hasBlockMatch (cs ++ X)) =
      hasBlockMatch X
    rw [matchBlockAt_none_of_pfx (show pfx fence (c :: (cs ++ X)) = false from hpf)]
    simp only [Option.isSome_none, Bool.false_or]
    exact ih X fun hm => h (List.mem_cons_of_mem c hm)

theorem hbm_seg_append :
    ∀ {s : List Char} (X : List Char),
      containsSub fence (s ++ [tick, tick]) = false →
      hasBlockMatch (s ++ X) = hasBlockMatch X := by
  intro s
  induction s with
  | nil => intro X _; rfl
  | cons c cs ih =>
    intro X h
    have hpf : pfx fence ((c :: cs) ++ X) = false := by
      rcases hq : pfx fence ((c :: cs) ++ X) with _ | _
      · rfl
      · have hpad := pfx_fence_pad (c :: cs) X (by simp) hq
        have hcs := containsSub_of_pfx hpad
        rw [show containsSub fence ((c :: cs) ++ [tick, tick]) =
          containsSub fence (c :: (cs ++ [tick, tick])) from rfl] at h
        rw [show pfx fence ((c :: cs) ++ [tick, tick]) =
          pfx fence (c :: (cs ++ [tick, tick])) from rfl] at hpad
        rw [containsSub_head h] at hpad
        cases hpad
    show ((matchBlockAt (c :: (cs ++ X))).isSome || hasBlockMatch (cs ++ X)) =
      hasBlockMatch X
    rw [matchBlockAt_none_of_pfx (show pfx fence (c :: (cs ++ X)) = false from hpf)]
    simp only [Option.isSome_none, Bool.false_or]
    exact ih X (containsSub_tail (show containsSub fence
      (c :: (cs ++ [tick, tick])) = false from h))

theorem hbm_cons_none {c : Char} {cs : List Char}
    (h : matchBlockAt (c :: cs) = none) :
    hasBlockMatch (c :: cs) = hasBlockMatch cs := by
  show ((matchBlockAt (c :: cs)).isSome || hasBlockMatch cs) = hasBlockMatch cs
  rw [h]
  simp

theorem matchBlockAt_open_bad {iw : List Char} {d : Char} {ir R : List Char}
    (hiw : ∀ c ∈ iw, isWordChar c = true) (hd : isWordChar d = false)
    (hdn : d ≠ '\n') :
    matchBlockAt (fence ++ ((iw ++ d :: ir) ++ ('\n' :: R))) = none := by
  unfold matchBlockAt
  rw [pfx_append]
  simp only [if_true]
  rw [List.drop_left' (by rfl : fence.length = 3)]
  rw [show (iw ++ d :: ir) ++ ('\n' :: R) = iw ++ d :: (ir ++ ('\n' :: R)) from by simp]
  have htw := twAppend iw d (ir ++ ('\n' :: R)) hiw hd
  rw [htw.2]
  rw [show pfx ['\n'] (d :: (ir ++ ('\n' :: R))) = false from by
    simp only [pfx, Bool.and_true]
    exact beq_eq_false_iff_ne.mpr (Ne.symm hdn)]
  simp

theorem matchBlockAt_close_bad {post : List Char} (hpost : tick ∉ post) :
    matchBlockAt (fence ++ post) = none := by
  unfold matchBlockAt
  rw [pfx_append]
  simp only [if_true]
  rw [List.drop_left' (by rfl : fence.length = 3)]
  rcases hn : pfx ['\n'] (post.dropWhile isWordChar) with _ | _
  · simp
  · simp only [if_true]
    have hsub : List.Sublist ((post.dropWhile isWordChar).drop 1) post :=
      (List.drop_sublist 1 _).trans (List.dropWhile_sublist isWordChar)
    have htl : tick ∉ (post.dropWhile isWordChar).drop 1 :=
      fun hm => hpost (hsub.subset hm)
    rw [splitFirst_none (containsSub_fence_of_tickless htl)]

/-- Pattern 1 leaves a document unchanged when its only fenced block has an
info string that is not purely word characters (and no stray fences exist
elsewhere): the regex requires `\w*` between the opening fence and the
newline, so no match ever starts. -/
theorem pattern1_badInfo (pre info body post : List Char)
    (hpre : containsSub fence (pre ++ [tick, tick]) = false)
    (hinfo : info.all isWordChar = false)
    (hinl : '\n' ∉ info) (hint : tick ∉ info)
    (hbody : containsSub fence (body ++ [tick, tick]) = false)
    (hpost : tick ∉ post) :
    pattern1 (pre ++ (fence ++ (info ++ ('\n' :: (body ++ (fence ++ post)))))) =
      pre ++ (fence ++ (info ++ ('\n' :: (body ++ (fence ++ post))))) := by
  rw [pattern1_seg pre _ hpre]
  congr 1
  apply pattern1_copy
  rcases twSplit isWordChar info with hall | ⟨iw, d, ir, hinfoeq, hiw, hd⟩
  · exfalso
    have hT : info.all isWordChar = true := by
      rw [List.all_eq_true]
      exact hall
    rw [hT] at hinfo
    cases hinfo
  · subst hinfoeq
    have hdn : d ≠ '\n' :=
      fun he => hinl (he ▸ List.mem_append_right iw (List.mem_cons_self d ir))
    have hz : ∃ z0 Z0, (iw ++ d :: ir) ++ ('\n' :: (body ++ (fence ++ post))) =
        z0 :: Z0 ∧ z0 ≠ tick := by
      rcases iw with _ | ⟨i0, iw'⟩
      · exact ⟨d, ir ++ ('\n' :: (body ++ (fence ++ post))), by simp,
          fun he => hint (he ▸ List.mem_append_right [] (List.mem_cons_self d ir))⟩
      · exact ⟨i0, (iw' ++ d :: ir) ++ ('\n' :: (body ++ (fence ++ post))), by simp,
          fun he => hint (he ▸ List.mem_append_left (d :: ir)
            (List.mem_cons_self i0 iw'))⟩
    obtain ⟨z0, Z0, hZ, hz0⟩ := hz
    have h1m : matchBlockAt (tick :: (tick :: (tick :: ((iw ++ d :: ir) ++
        ('\n' :: (body ++ (fence ++ post))))))) = none := by
      rw [show (tick :: (tick :: (tick :: ((iw ++ d :: ir) ++
          ('\n' :: (body ++ (fence ++ post))))))) = fence ++ ((iw ++ d :: ir) ++
          ('\n' :: (body ++ (fence ++ post)))) from by rw [fence_eq]; rfl]
      exact matchBlockAt_open_bad hiw hd hdn
    have h2m : matchBlockAt (tick :: (tick :: (z0 :: Z0))) = none := by
      apply matchBlockAt_none_of_pfx
      rcases hq : pfx fence (tick :: (tick :: (z0 :: Z0))) with _ | _
      · rfl
      · exfalso
        obtain ⟨r, hr⟩ := (pfx_iff fence _).mp hq
        rw [fence_eq] at hr
        injection hr with _ hr2
        injection hr2 with _ hr3
        injection hr3 with h3 _
        exact hz0 h3
    have h3m : matchBlockAt (tick :: (z0 :: Z0)) = none := by
      apply matchBlockAt_none_of_pfx
      rcases hq : pfx fence (tick :: (z0 :: Z0)) with _ | _
      · rfl
      · exfalso
        obtain ⟨r, hr⟩ := (pfx_iff fence _).mp hq
        rw [fence_eq] at hr
        injection hr with _ hr2
        injection hr2 with h2 _
        exact hz0 h2
    have hnl : matchBlockAt ('\n' :: (body ++ (fence ++ post))) = none := by
      apply matchBlockAt_none_of_pfx
      rcases hq : pfx fence ('\n' :: (body ++ (fence ++ post))) with _ | _
      · rfl
      · exfalso
        obtain ⟨r, hr⟩ := (pfx_iff fence _).mp hq
        rw [fence_eq] at hr
        injection hr with h1 _
        exact absurd h1 (by decide)
    have hcb : matchBlockAt (tick :: (tick :: (tick :: post))) = none := by
      rw [show (tick :: (tick :: (tick :: post))) = fence ++ post from by
        rw [fence_eq]; rfl]
      exact matchBlockAt_close_bad hpost
    have hA : matchBlockAt (tick :: (tick :: post)) = none := by
      apply matchBlockAt_none_of_pfx
      rcases post with _ | ⟨p0, post'⟩
      · decide
      · rcases hq : pfx fence (tick :: (tick :: (p0 :: post'))) with _ | _
        · rfl
        · exfalso
          obtain ⟨r, hr⟩ := (pfx_iff fence _).mp hq
          rw [fence_eq] at hr
          injection hr with _ hr2
          injection hr2 with _ hr3
          injection hr3 with h3 _
          exact hpost (h3 ▸ List.mem_cons_self p0 post')
    have hB : matchBlockAt (tick :: post) = none := by
      apply matchBlockAt_none_of_pfx
      rcases post with _ | ⟨p0, post'⟩
      · decide
      · rcases hq : pfx fence (tick :: (p0 :: post')) with _ | _
        · rfl
        · exfalso
          obtain ⟨r, hr⟩ := (pfx_iff fence _).mp hq
          rw [fence_eq] at hr
          injection hr with _ hr2
          injection hr2 with h2 _
          exact hpost (h2 ▸ List.mem_cons_self p0 post')
    have hpo : hasBlockMatch post = false := by
      have h := hbm_tickless_append [] hpost
      simpa using h
    rw [show fence ++ ((iw ++ d :: ir) ++ ('\n' :: (body ++ (fence ++ post)))) =
      tick :: (tick :: (tick :: ((iw ++ d :: ir) ++
        ('\n' :: (body ++ (fence ++ post)))))) from by rw [fence_eq]; rfl]
    rw [hbm_cons_none h1m]
    rw [hZ, hbm_cons_none h2m, hbm_cons_none h3m, ← hZ]
    rw [hbm_tickless_append ('\n' :: (body ++ (fence ++ post))) hint]
    rw [hbm_cons_none hnl]
    rw [hbm_seg_append (fence ++ post) hbody]
    rw [show fence ++ post = tick :: (tick :: (tick :: post)) from by
      rw [fence_eq]; rfl]
    rw [hbm_cons_none hcb, hbm_cons_none hA, hbm_cons_none hB]
    exact hpo

/-! Each rule only inserts text around preserved spans: the input is a
subsequence (`List.Sublist`) of the output. -/

theorem wrapBlock_sub (b : List Char) : List.Sublist b (wrapBlock b) := by
  unfold wrapBlock
  split
  · have h1 : List.Sublist b (b ++ ('\n' :: rawClose)) := List.sublist_append_left b _
    exact (List.Sublist.cons '\n' h1).trans (List.sublist_append_right rawOpen _)
  · exact List.Sublist.refl b

theorem rawWrap_sub (sp : List Char) : List.Sublist sp (rawWrap sp) :=
  (List.sublist_append_left sp rawClose).trans (List.sublist_append_right rawOpen _)

theorem pattern1_sub_aux :
    ∀ (n : Nat) (s : List Char), s.length ≤ n → List.Sublist s (pattern1 s) := by
  intro n
  induction n with
  | zero =>
    intro s h
    have hs : s = [] := List.eq_nil_of_length_eq_zero (Nat.le_zero.mp h)
    subst hs
    rw [pattern1_nil]
  | succ n ih =>
    intro s h
    rcases s with _ | ⟨c, cs⟩
    · rw [pattern1_nil]
    · rcases hm : matchBlockAt (c :: cs) with _ | ⟨lang, code, rest⟩
      · rw [pattern1_cons_nomatch hm]
        exact List.Sublist.cons₂ c (ih cs (by simpa using h))
      · rw [pattern1_cons_match hm]
        have heq := matchBlockAt_some_eq hm
        rw [heq]
        have hlt := matchBlockAt_rest_lt hm
        simp only [List.length_cons] at h hlt
        exact List.Sublist.append (wrapBlock_sub (blockText lang code))
          (ih rest (by omega))

theorem pattern1_sub (s : List Char) : List.Sublist s (pattern1 s) :=
  pattern1_sub_aux s.length s (le_refl _)

theorem pattern2Line_sub_aux :
    ∀ (n : Nat) (s : List Char), s.length ≤ n → List.Sublist s (pattern2Line s) := by
  intro n
  induction n with
  | zero =>
    intro s h
    have hs : s = [] := List.eq_nil_of_length_eq_zero (Nat.le_zero.mp h)
    subst hs
    rw [pattern2Line_nil]
  | succ n ih =>
    intro s h
    rcases s with _ | ⟨c, cs⟩
    · rw [pattern2Line_nil]
    · rcases hm : matchInlineAt (c :: cs) with _ | ⟨w, rest⟩
      · rw [pattern2Line_cons_nomatch hm]
        exact List.Sublist.cons₂ c (ih cs (by simpa using h))
      · rw [pattern2Line_cons_match hm]
        have heq := (matchInlineAt_some_eq hm).1.1
        rw [heq]
        have hlt := matchInlineAt_rest_lt hm
        simp only [List.length_cons] at h hlt
        have hrest : List.Sublist rest (rawClose ++ pattern2Line rest) :=
          (ih rest (by omega)).trans (List.sublist_append_right rawClose _)
        exact ((hrest.append_left (inlineTok w)).trans
          (List.sublist_append_right rawOpen _))

theorem pattern2Line_sub (s : List Char) : List.Sublist s (pattern2Line s) :=
  pattern2Line_sub_aux s.length s (le_refl _)

theorem pattern3_sub_aux :
    ∀ (n : Nat) (s : List Char), s.length ≤ n → List.Sublist s (pattern3 s) := by
  intro n
  induction n with
  | zero =>
    intro s h
    have hs : s = [] := List.eq_nil_of_length_eq_zero (Nat.le_zero.mp h)
    subst hs
    rw [pattern3_nil]
  | succ n ih =>
    intro s h
    rcases s with _ | ⟨c, cs⟩
    · rw [pattern3_nil]
    · rcases hm : matchDollarAt (c :: cs) with _ | ⟨x, rest⟩
      · rw [pattern3_cons_nomatch hm]
        exact List.Sublist.cons₂ c (ih cs (by simpa using h))
      · rw [pattern3_cons_match hm]
        have heq := (matchDollarAt_some_eq hm).1
        rw [heq]
        have hlt := matchDollarAt_rest_lt hm
        simp only [List.length_cons] at h hlt
        have hrest : List.Sublist rest (rawClose ++ pattern3 rest) :=
          (ih rest (by omega)).trans (List.sublist_append_right rawClose _)
        exact ((hrest.append_left (dollarSpan x)).trans
          (List.sublist_append_right rawOpen _))

theorem pattern3_sub (s : List Char) : List.Sublist s (pattern3 s) :=
  pattern3_sub_aux s.length s (le_refl _)

theorem pattern4_sub_aux :
    ∀ (n : Nat) (s : List Char), s.length ≤ n → List.Sublist s (pattern4 s) := by
  intro n
  induction n with
  | zero =>
    intro s h
    have hs : s = [] := List.eq_nil_of_length_eq_zero (Nat.le_zero.mp h)
    subst hs
    rw [pattern4_nil]
  | succ n ih =>
    intro s h
    rcases s with _ | ⟨c, cs⟩
    · rw [pattern4_nil]
    · rcases hm : matchStructAt (c :: cs) with _ | ⟨u, w, v, rest⟩
      · rw [pattern4_cons_nomatch hm]
        exact List.Sublist.cons₂ c (ih cs (by simpa using h))
      · rw [pattern4_cons_match hm]
        have heq := (matchStructAt_some_eq hm).1
        rw [heq]
        have hlt := matchStructAt_rest_lt hm
        simp only [List.length_cons] at h hlt
        have hrest : List.Sublist rest (rawClose ++ pattern4 rest) :=
          (ih rest (by omega)).trans (List.sublist_append_right rawClose _)
        exact ((hrest.append_left (structSpan u w v)).trans
          (List.sublist_append_right rawOpen _))

theorem pattern4_sub (s : List Char) : List.Sublist s (pattern4 s) :=
  pattern4_sub_aux s.length s (le_refl _)

theorem intercalate_cons₂ (sep a b : List Char) (t : List (List Char)) :
    List.intercalate sep (a :: b :: t) =
      a ++ (sep ++ List.intercalate sep (b :: t)) := by
  simp [List.intercalate, List.intersperse_cons_cons]

theorem intercalate_map_sub (sep : List Char) (f : List Char → List Char)
    (hf : ∀ l, List.Sublist l (f l)) :
    ∀ ls : List (List Char),
      List.Sublist (List.intercalate sep ls) (List.intercalate sep (ls.map f)) := by
  intro ls
  induction ls with
  | nil => exact List.Sublist.refl _
  | cons a t ih =>
    rcases t with _ | ⟨b, t'⟩
    · simp only [List.map_cons, List.map_nil]
      rw [show List.intercalate sep [a] = a from by simp [List.intercalate],
        show List.intercalate sep [f a] = f a from by simp [List.intercalate]]
      exact hf a
    · simp only [List.map_cons]
      rw [intercalate_cons₂, intercalate_cons₂]
      exact List.Sublist.append (hf a)
        (List.Sublist.append (List.Sublist.refl sep) (by simpa using ih))

theorem processLine_sub (l : List Char) : List.Sublist l (processLine l) := by
  unfold processLine
  split
  · exact List.Sublist.refl l
  · split
    · exact pattern2Line_sub l
    · exact List.Sublist.refl l

theorem pattern2_sub (s : List Char) : List.Sublist s (pattern2 s) := by
  unfold pattern2
  conv_lhs => rw [← List.intercalate_splitOn s '\n']
  exact intercalate_map_sub ['\n'] processLine processLine_sub (s.splitOn '\n')

theorem fixContent_sub (s : List Char) : List.Sublist s (fixContent s) :=
  ((((pattern1_sub s).trans (pattern2_sub (pattern1 s))).trans
    (pattern3_sub (pattern2 (pattern1 s)))).trans
    (pattern4_sub (pattern3 (pattern2 (pattern1 s)))))

/-! Relating `fix_file` (with change records) to the plain pipeline. -/

theorem processLineC_fst (i : Nat) (line : List Char) :
    (processLineC i line).1 = processLine line := by
  unfold processLineC processLine
  split
  · rfl
  · split
    · rfl
    · rfl

theorem pattern2C_fst (s : List Char) : (pattern2C s).1 = pattern2 s := by
  unfold pattern2C pattern2
  show List.intercalate ['\n']
      (((s.splitOn '\n').enum.map fun pr => processLineC pr.1 pr.2).map Prod.fst) =
    List.intercalate ['\n'] ((s.splitOn '\n').map processLine)
  congr 1
  rw [List.map_map]
  have hfun : (Prod.fst ∘ fun pr : Nat × List Char => processLineC pr.1 pr.2) =
      fun pr : Nat × List Char => processLine pr.2 := by
    funext pr
    exact processLineC_fst pr.1 pr.2
  rw [hfun]
  rw [show (fun pr : Nat × List Char => processLine pr.2) =
    processLine ∘ Prod.snd from rfl]
  rw [← List.map_map, List.enum_map_snd]

theorem fix_file_text (c : List Char) :
    pattern4 (pattern3 ((pattern2C (pattern1 c)).1)) = fixContent c := by
  rw [pattern2C_fst]
  rfl

/-! The claims. -/

/-- C1: the claim asserts that running the remediation a second time yields
exactly the first run's output and never re-wraps an already wrapped span.
This is false of the code: on the document `${{ a }}` the first run
produces `{% raw %}${{ a }}{% endraw %}`, and the second run's Pattern 3
matches the inner `${{ a }}` again (Patterns 3 and 4 have no
already-wrapped check, and Pattern 1's check looks only inside the matched
block), producing a doubly wrapped span.  The code's own `Check if already
wrapped` comment and Pattern 2's skipping of raw-marker lines show that
not re-wrapping was intended, so this is a bug in the code. -/
theorem claim1_second_run_rewraps :
    fixContent ("$\x7b\x7b a \x7d\x7d".toList) =
      "\x7b% raw %\x7d$\x7b\x7b a \x7d\x7d\x7b% endraw %\x7d".toList ∧
    fixContent (fixContent ("$\x7b\x7b a \x7d\x7d".toList)) =
      ("\x7b% raw %\x7d\x7b% raw %\x7d$\x7b\x7b a \x7d\x7d\x7b% endraw %\x7d" ++
        "\x7b% endraw %\x7d").toList ∧
    fixContent (fixContent ("$\x7b\x7b a \x7d\x7d".toList)) ≠
      fixContent ("$\x7b\x7b a \x7d\x7d".toList) := by
  refine ⟨by decide, by decide, by decide⟩

/-- C2: `fix_file` either leaves the content untouched (no write, returns
`false`) or performs exactly one write of the content obtained by applying
the four rules in fixed order, each to the output of the previous one
(returns `true`); the write happens exactly when the fully transformed
content differs from the original, and nothing partially transformed is
ever persisted. -/
theorem claim2_write_iff_changed (c : List Char) :
    ((fix_file c).wrote = true ↔ fixContent c ≠ c) ∧
    (fix_file c).text = fixContent c ∧
    (fix_file c).writes = (if fixContent c ≠ c then [fixContent c] else []) ∧
    fixContent c = pattern4 (pattern3 (pattern2 (pattern1 c))) := by
  unfold fix_file
  rw [fix_file_text c]
  by_cases h : fixContent c ≠ c
  · rw [if_pos h, if_pos h]
    exact ⟨iff_of_true rfl h, rfl, rfl, rfl⟩
  · rw [if_neg h, if_neg h]
    have heq : fixContent c = c := not_not.mp h
    exact ⟨iff_of_false (by simp) h, heq.symm, rfl, rfl⟩

/-- C2 witness: on a document with a GitHub-Actions span the transformation
changes the content, so `fix_file` writes it and returns `true`. -/
theorem claim2_witness :
    (fix_file ("url: $\x7b\x7b secrets.TOKEN \x7d\x7d".toList)).wrote = true ∧
    (fix_file ("url: $\x7b\x7b secrets.TOKEN \x7d\x7d".toList)).text =
      "url: \x7b% raw %\x7d$\x7b\x7b secrets.TOKEN \x7d\x7d\x7b% endraw %\x7d".toList := by
  have h := claim2_write_iff_changed ("url: $\x7b\x7b secrets.TOKEN \x7d\x7d".toList)
  refine ⟨h.1.mpr (by decide), ?_⟩
  rw [h.2.1]
  decide

/-- C8: the change-record list built during the inline rule is observably
irrelevant: the variant of `fix_file` that omits its construction returns
the same Boolean and produces byte-identical content. -/
theorem claim8_changes_no_op (c : List Char) :
    (fix_file c).wrote = (fix_file_plain c).1 ∧
    (fix_file c).text = (fix_file_plain c).2 := by
  unfold fix_file fix_file_plain
  rw [fix_file_text c]
  by_cases h : fixContent c ≠ c
  · simp [h]
  · simp [h]

/-- C9: every rule only inserts raw-marker text around spans it preserves:
the input is a subsequence of each rule's output and of the full
transformation's output, so the length never decreases, with equality
exactly when nothing changed. -/
theorem claim9_sublist (s : List Char) :
    List.Sublist s (pattern1 s) ∧ List.Sublist s (pattern2 s) ∧
    List.Sublist s (pattern3 s) ∧ List.Sublist s (pattern4 s) ∧
    List.Sublist s (fixContent s) ∧
    s.length ≤ (fixContent s).length ∧
    ((fixContent s).length = s.length ↔ fixContent s = s) := by
  refine ⟨pattern1_sub s, pattern2_sub s, pattern3_sub s, pattern4_sub s,
    fixContent_sub s, (fixContent_sub s).length_le, ?_, ?_⟩
  · intro h
    exact ((fixContent_sub s).eq_of_length h.symm).symm
  · intro h
    rw [h]

/-- C3 counterexample: the block `\x60\x60\x60go … \x60\x60\x60` in this
document qualifies (it contains the marker `{{.` and no raw marker, and
occurs verbatim in the document), yet the rule's output does not even
contain the block: the scan pairs the closing fence of an earlier
non-matching block with this block's opening fence, wraps the text
between them, and shreds the qualifying block. -/
theorem claim3_counterexample :
    containsSub ("```go\n\x7b\x7b.y\x7d\x7d\n```").toList
      ("```a b\nX\n```\n\x7b\x7b.q\x7d\x7d\n```go\n\x7b\x7b.y\x7d\x7d\n```\n").toList = true ∧
    hasTplMarker ("```go\n\x7b\x7b.y\x7d\x7d\n```").toList = true ∧
    containsSub rawOpen ("```go\n\x7b\x7b.y\x7d\x7d\n```").toList = false ∧
    containsSub ("```go\n\x7b\x7b.y\x7d\x7d\n```").toList
      (pattern1 ("```a b\nX\n```\n\x7b\x7b.q\x7d\x7d\n```go\n\x7b\x7b.y\x7d\x7d\n```\n").toList) =
        false := by
  refine ⟨by decide, by decide, by decide, by decide⟩

/-- C3 (amended): when the document decomposes into fence-free segments
interleaved with well-formed fenced blocks (word-character language tag,
fence-free body), Pattern 1 re-emits each block that contains a template
marker and no raw marker with a `{% raw %}` line before the opening fence
and an `{% endraw %}` line after the closing fence, language tag and body
verbatim, and leaves every other block — in particular one already
containing the raw marker — untouched. -/
theorem claim3_blocks (ps : List (List Char × List Char)) (last : List Char)
    (hps : ∀ pr ∈ ps, containsSub fence (pr.1 ++ [tick, tick]) = false ∧
      ∃ lang code, (∀ c ∈ lang, isWordChar c = true) ∧
        containsSub fence (code ++ [tick, tick]) = false ∧
        pr.2 = blockText lang code)
    (hlast : containsSub fence (last ++ [tick, tick]) = false) :
    pattern1 (glue ps last) =
      glueWith (fun b =>
        if hasTplMarker b && !containsSub rawOpen b then
          rawOpen ++ '\n' :: (b ++ '\n' :: rawClose)
        else b) ps last := by
  rw [pattern1_glue ps last hps hlast]
  rfl

/-- C3 witness: the spec's own example block is wrapped as claimed. -/
theorem claim3_witness :
    pattern1 ("```go\nfmt.Println(\x7b\x7b.Value\x7d\x7d)\n```").toList =
      ("\x7b% raw %\x7d\n```go\nfmt.Println(\x7b\x7b.Value\x7d\x7d)\n```\n\x7b% endraw %\x7d").toList := by
  have h := claim3_blocks
    [([], blockText ("go").toList ("fmt.Println(\x7b\x7b.Value\x7d\x7d)\n").toList)] []
    (by
      intro pr hpr
      rw [List.mem_singleton] at hpr
      subst hpr
      exact ⟨by decide, ("go").toList, ("fmt.Println(\x7b\x7b.Value\x7d\x7d)\n").toList,
        by decide, by decide, rfl⟩)
    (by decide)
  rw [show ("```go\nfmt.Println(\x7b\x7b.Value\x7d\x7d)\n```").toList =
      glue [([], blockText ("go").toList ("fmt.Println(\x7b\x7b.Value\x7d\x7d)\n").toList)] []
    from by decide]
  rw [h]
  decide

/-- C5 counterexample: in `${{ a ${{ b }}` the inner span `${{ b }}` has
the claimed form (non-empty content without a closing brace) and occurs in
the document, but the rule's greedy run from the first `${{` swallows it:
the output wraps the whole string once and contains no wrapped copy of the
inner span. -/
theorem claim5_counterexample :
    pattern3 ("$\x7b\x7b a $\x7b\x7b b \x7d\x7d").toList =
      ("\x7b% raw %\x7d$\x7b\x7b a $\x7b\x7b b \x7d\x7d\x7b% endraw %\x7d").toList ∧
    containsSub (dollarSpan (" b ").toList) ("$\x7b\x7b a $\x7b\x7b b \x7d\x7d").toList = true ∧
    containsSub (rawWrap (dollarSpan (" b ").toList))
      (pattern3 ("$\x7b\x7b a $\x7b\x7b b \x7d\x7d").toList) = false := by
  refine ⟨by decide, by decide, by decide⟩

/-- C5 (amended): when the document decomposes into segments free of the
`${{` opener interleaved with spans `${{x}}` (x non-empty, brace-free),
Pattern 3 wraps exactly those spans in `{% raw %}…{% endraw %}` and
copies the segments verbatim. -/
theorem claim5_spans (ps : List (List Char × List Char)) (last : List Char)
    (hps : ∀ pr ∈ ps, containsSub dOpen pr.1 = false ∧
      ∃ x, x ≠ [] ∧ (∀ c ∈ x, notBrace c = true) ∧ pr.2 = dollarSpan x)
    (hlast : containsSub dOpen last = false) :
    pattern3 (glue ps last) = glueWith rawWrap ps last :=
  pattern3_glue ps last hps hlast

/-- C5 witness: the spec's own example. -/
theorem claim5_witness :
    pattern3 ("url: $\x7b\x7b secrets.TOKEN \x7d\x7d").toList =
      ("url: \x7b% raw %\x7d$\x7b\x7b secrets.TOKEN \x7d\x7d\x7b% endraw %\x7d").toList := by
  have h := claim5_spans [(("url: ").toList, dollarSpan (" secrets.TOKEN ").toList)] []
    (by
      intro pr hpr
      rw [List.mem_singleton] at hpr
      subst hpr
      exact ⟨by decide, (" secrets.TOKEN ").toList, by decide, by decide, rfl⟩)
    (by decide)
  rw [show ("url: $\x7b\x7b secrets.TOKEN \x7d\x7d").toList =
      glue [(("url: ").toList, dollarSpan (" secrets.TOKEN ").toList)] [] from by decide]
  rw [h]
  decide

/-- C6 counterexample: in `{{A: {{B: x}}` the inner span `{{B: x}}` has the
claimed form (capitalized identifier, colon-space, brace-free value) and
occurs in the document, but the rule's greedy run from the outer `{{A:`
swallows it: the output wraps the whole string once and contains no
wrapped copy of the inner span. -/
theorem claim6_counterexample :
    pattern4 ("\x7b\x7bA: \x7b\x7bB: x\x7d\x7d").toList =
      ("\x7b% raw %\x7d\x7b\x7bA: \x7b\x7bB: x\x7d\x7d\x7b% endraw %\x7d").toList ∧
    containsSub (structSpan 'B' [] (" x").toList)
      ("\x7b\x7bA: \x7b\x7bB: x\x7d\x7d").toList = true ∧
    containsSub (rawWrap (structSpan 'B' [] (" x").toList))
      (pattern4 ("\x7b\x7bA: \x7b\x7bB: x\x7d\x7d").toList) = false := by
  refine ⟨by decide, by decide, by decide⟩

/-- C6 (amended): when the document decomposes into segments free of a
`{{` + uppercase-letter opener interleaved with spans
`{{U w: v}}`-shaped (`U` uppercase, `w` word characters, `v` non-empty and
brace-free), Pattern 4 wraps exactly those spans in
`{% raw %}…{% endraw %}` and copies the segments verbatim. -/
theorem claim6_spans (ps : List (List Char × List Char)) (last : List Char)
    (hps : ∀ pr ∈ ps, hasUOpen pr.1 = false ∧
      ∃ u w v, isUpperAZ u = true ∧ (∀ c ∈ w, isWordChar c = true) ∧
        v ≠ [] ∧ (∀ c ∈ v, notBrace c = true) ∧ pr.2 = structSpan u w v)
    (hlast : hasUOpen last = false) :
    pattern4 (glue ps last) = glueWith rawWrap ps last :=
  pattern4_glue ps last hps hlast

/-- C6 witness: a struct-literal span of the form from the code's comment. -/
theorem claim6_witness :
    pattern4 ("\x7b\x7bKey: value\x7d\x7d").toList =
      ("\x7b% raw %\x7d\x7b\x7bKey: value\x7d\x7d\x7b% endraw %\x7d").toList := by
  have h := claim6_spans [([], structSpan 'K' ("ey").toList (" value").toList)] []
    (by
      intro pr hpr
      rw [List.mem_singleton] at hpr
      subst hpr
      exact ⟨by decide, 'K', ("ey").toList, (" value").toList,
        by decide, by decide, by decide, by decide, rfl⟩)
    (by decide)
  rw [show ("\x7b\x7bKey: value\x7d\x7d").toList =
      glue [([], structSpan 'K' ("ey").toList (" value").toList)] [] from by decide]
  rw [h]
  decide

/-- C10 counterexample: the block whose opening fence carries the info
string `a b` (a space, so not matched by the word-character language
group) is not left completely unchanged when a later qualifying pair of
fences exists: the scan pairs this block's closing fence with the
document's final fence and inserts raw markers inside the block, so the
original block text no longer occurs in the output. -/
theorem claim10_counterexample :
    pattern1 ("```a b\nX\n```\n\x7b\x7b.y\x7d\x7d\n```").toList =
      ("```a b\nX\n\x7b% raw %\x7d\n```\n\x7b\x7b.y\x7d\x7d\n```\n\x7b% endraw %\x7d").toList ∧
    containsSub ("```a b\nX\n```").toList
      ("```a b\nX\n```\n\x7b\x7b.y\x7d\x7d\n```").toList = true ∧
    containsSub ("```a b\nX\n```").toList
      (pattern1 ("```a b\nX\n```\n\x7b\x7b.y\x7d\x7d\n```").toList) = false := by
  refine ⟨by decide, by decide, by decide⟩

/-- C10 (amended): a fenced block whose info string is not all word
characters (and is newline- and backtick-free) is left unchanged by
Pattern 1 provided no other fence material surrounds it: with a
backtick-free-modulo-boundary prefix and body and a backtick-free suffix,
the whole document is returned verbatim. -/
theorem claim10_badInfo_kept (pre info body post : List Char)
    (hpre : containsSub fence (pre ++ [tick, tick]) = false)
    (hinfo : info.all isWordChar = false)
    (hinl : '\n' ∉ info) (hint : tick ∉ info)
    (hbody : containsSub fence (body ++ [tick, tick]) = false)
    (hpost : tick ∉ post) :
    pattern1 (pre ++ (fence ++ (info ++ ('\n' :: (body ++ (fence ++ post)))))) =
      pre ++ (fence ++ (info ++ ('\n' :: (body ++ (fence ++ post))))) :=
  pattern1_badInfo pre info body post hpre hinfo hinl hint hbody hpost

/-- C10 witness: a lone block with info string `go+ext` (the `+` is not a
word character) is returned verbatim even though its body contains a
template marker. -/
theorem claim10_witness :
    pattern1 ("```go+ext\n\x7b\x7b.x\x7d\x7d\n```").toList =
      ("```go+ext\n\x7b\x7b.x\x7d\x7d\n```").toList := by
  have h := claim10_badInfo_kept [] ("go+ext").toList ("\x7b\x7b.x\x7d\x7d\n").toList []
    (by decide) (by decide) (by decide) (by decide) (by decide) (by decide)
  rw [show ("```go+ext\n\x7b\x7b.x\x7d\x7d\n```").toList =
      [] ++ (fence ++ (("go+ext").toList ++
        ('\n' :: (("\x7b\x7b.x\x7d\x7d\n").toList ++ (fence ++ []))))) from by decide]
  exact h

/-- C4: a line that decomposes into token-free segments interleaved with
inline tokens `{{.w}}` (`w` a non-empty run of word or hyphen characters),
and that contains no raw marker and no fence, has every token replaced by
`{% raw %}{{.w}}{% endraw %}` with the rest of the line verbatim. -/
theorem claim4_inline (ps : List (List Char × List Char)) (last : List Char)
    (hps : ∀ pr ∈ ps, hasTok pr.1 = false ∧
      ∃ w, w ≠ [] ∧ (∀ c ∈ w, isWordHyphen c = true) ∧ pr.2 = inlineTok w)
    (hlast : hasTok last = false)
    (hro : containsSub rawOpen (glue ps last) = false)
    (hrc : containsSub rawClose (glue ps last) = false)
    (hfc : containsSub fence (glue ps last) = false) :
    processLine (glue ps last) = glueWith rawWrap ps last := by
  have hstrip : pfx fence ((glue ps last).dropWhile isPySpace) = false := by
    rcases hq : pfx fence ((glue ps last).dropWhile isPySpace) with _ | _
    · rfl
    · have h1 := containsSub_of_pfx hq
      have h2 : containsSub fence
          ((glue ps last).takeWhile isPySpace ++ (glue ps last).dropWhile isPySpace) = true :=
        containsSub_append_left h1
      rw [List.takeWhile_append_dropWhile] at h2
      rw [hfc] at h2
      cases h2
  have hcond1 : ¬((containsSub rawOpen (glue ps last) || containsSub rawClose (glue ps last) ||
      pfx fence ((glue ps last).dropWhile isPySpace)) = true) := by
    rw [hro, hrc, hstrip]
    decide
  rcases hd : containsSub openDot (glue ps last) with _ | _
  · rcases ps with _ | ⟨pr, ps'⟩
    · unfold processLine
      rw [if_neg hcond1]
      have hcond2 : ¬((containsSub openDot (glue [] last) &&
          !containsSub fence (glue [] last)) = true) := by
        rw [hd]
        simp
      rw [if_neg hcond2]
      rfl
    · exfalso
      obtain ⟨hseg, w, hw, hwh, htk⟩ := hps pr (by simp)
      have hcd : containsSub openDot (pr.1 ++ (pr.2 ++ glue ps' last)) = true := by
        apply containsSub_append_left
        rw [htk, inlineTok, List.append_assoc]
        exact containsSub_of_pfx (pfx_append openDot _)
      rw [show glue (pr :: ps') last = pr.1 ++ (pr.2 ++ glue ps' last) from rfl] at hd
      rw [hcd] at hd
      cases hd
  · unfold processLine
    rw [if_neg hcond1]
    have hcond2 : (containsSub openDot (glue ps last) &&
        !containsSub fence (glue ps last)) = true := by
      rw [hd, hfc]
      decide
    rw [if_pos hcond2]
    exact pattern2Line_glue ps last hps hlast

/-- C4 witness: the spec's own example line. -/
theorem claim4_witness :
    processLine ("Output: \"Hello, \x7b\x7b.name\x7d\x7d!\"").toList =
      ("Output: \"Hello, \x7b% raw %\x7d\x7b\x7b.name\x7d\x7d\x7b% endraw %\x7d!\"").toList := by
  have h := claim4_inline
    [(("Output: \"Hello, ").toList, inlineTok ("name").toList)] (("!\"").toList)
    (by
      intro pr hpr
      rw [List.mem_singleton] at hpr
      subst hpr
      exact ⟨by decide, ("name").toList, by decide, by decide, rfl⟩)
    (by decide) (by decide) (by decide) (by decide)
  rw [show ("Output: \"Hello, \x7b\x7b.name\x7d\x7d!\"").toList =
      glue [(("Output: \"Hello, ").toList, inlineTok ("name").toList)] (("!\"").toList)
    from by decide]
  rw [h]
  decide

/-! Lemmas about the run model, for the missing-file claim. -/

theorem processOne_some_eq (d : Disk) (q : String) (c : List Char)
    (hq : d q = some c) :
    processOne d q = (if (fix_file c).wrote = true then
      { disk := fun r => if r = q then some (fix_file c).text else d r,
        events := [Ev.processing q, Ev.readF q, Ev.writeF q (fix_file c).text,
          Ev.fixedMsg],
        count := 1 }
    else { disk := d, events := [Ev.processing q, Ev.readF q, Ev.noChangeMsg],
           count := 0 }) := by
  unfold processOne
  rw [hq]

theorem processOne_none_eq (d : Disk) (q : String) (hq : d q = none) :
    processOne d q = { disk := d, events := [Ev.notFound q], count := 0 } := by
  unfold processOne
  rw [hq]

theorem processOne_none_disk (d : Disk) (q p : String) (h : d p = none) :
    (processOne d q).disk p = none := by
  rcases hq : d q with _ | c
  · rw [processOne_none_eq d q hq]
    exact h
  · rcases hw : (fix_file c).wrote with _ | _
    · rw [processOne_some_eq d q c hq, if_neg (by simp [hw])]
      exact h
    · rw [processOne_some_eq d q c hq, if_pos hw]
      show (if p = q then some (fix_file c).text else d p) = none
      by_cases hpq : p = q
      · rw [hpq, hq] at h
        cases h
      · rw [if_neg hpq]
        exact h

theorem processFiles_none_disk (p : String) :
    ∀ (l : List String) (d : Disk), d p = none → (processFiles l d).disk p = none := by
  intro l
  induction l with
  | nil => intro d h; exact h
  | cons q l ih =>
    intro d h
    exact ih (processOne d q).disk (processOne_none_disk d q p h)

theorem processOne_events_none (d : Disk) (q p : String) (h : d p = none) :
    Ev.readF p ∉ (processOne d q).events ∧
    ∀ c, Ev.writeF p c ∉ (processOne d q).events := by
  rcases hq : d q with _ | c
  · rw [processOne_none_eq d q hq]
    refine ⟨by simp, ?_⟩
    intro c hm
    simp at hm
  · have hpq : p ≠ q := by
      intro he
      rw [he, hq] at h
      cases h
    rcases hw : (fix_file c).wrote with _ | _
    · rw [processOne_some_eq d q c hq, if_neg (by simp [hw])]
      refine ⟨?_, ?_⟩
      · intro hm
        simp at hm
        exact hpq hm
      · intro c' hm
        simp at hm
    · rw [processOne_some_eq d q c hq, if_pos hw]
      refine ⟨?_, ?_⟩
      · intro hm
        simp at hm
        exact hpq hm
      · intro c' hm
        simp at hm
        exact hpq hm.1

theorem processFiles_events_none (p : String) :
    ∀ (l : List String) (d : Disk), d p = none →
      Ev.readF p ∉ (processFiles l d).events ∧
      ∀ c, Ev.writeF p c ∉ (processFiles l d).events := by
  intro l
  induction l with
  | nil =>
    intro d h
    exact ⟨by simp [processFiles], by intro c; simp [processFiles]⟩
  | cons q l ih =>
    intro d h
    obtain ⟨h1, h2⟩ := processOne_events_none d q p h
    obtain ⟨h3, h4⟩ := ih (processOne d q).disk (processOne_none_disk d q p h)
    refine ⟨?_, ?_⟩
    · intro hm
      rcases List.mem_append.mp hm with hm | hm
      · exact h1 hm
      · exact h3 hm
    · intro c hm
      rcases List.mem_append.mp hm with hm | hm
      · exact h2 c hm
      · exact h4 c hm

theorem processFiles_split (p : String) (l₂ : List String) :
    ∀ (l₁ : List String) (d : Disk), d p = none →
      (processFiles (l₁ ++ p :: l₂) d).events =
        (processFiles l₁ d).events ++
          Ev.notFound p :: (processFiles l₂ (processFiles l₁ d).disk).events ∧
      (processFiles (l₁ ++ p :: l₂) d).count =
        (processFiles l₁ d).count + (processFiles l₂ (processFiles l₁ d).disk).count ∧
      (processFiles (l₁ ++ p :: l₂) d).disk =
        (processFiles l₂ (processFiles l₁ d).disk).disk := by
  intro l₁
  induction l₁ with
  | nil =>
    intro d h
    have hone : processOne d p = { disk := d, events := [Ev.notFound p], count := 0 } := by
      unfold processOne
      rw [h]
    refine ⟨?_, ?_, ?_⟩
    · show (processOne d p).events ++ (processFiles l₂ (processOne d p).disk).events = _
      rw [hone]
      rfl
    · show (processOne d p).count + (processFiles l₂ (processOne d p).disk).count = _
      rw [hone]
      rfl
    · show (processFiles l₂ (processOne d p).disk).disk = _
      rw [hone]
      rfl
  | cons q l₁ ih =>
    intro d h
    obtain ⟨he, hc, hd⟩ := ih (processOne d q).disk (processOne_none_disk d q p h)
    refine ⟨?_, ?_, ?_⟩
    · show (processOne d q).events ++
        (processFiles (l₁ ++ p :: l₂) (processOne d q).disk).events = _
      rw [he]
      show _ = ((processOne d q).events ++
        (processFiles l₁ (processOne d q).disk).events) ++ _
      rw [List.append_assoc]
      rfl
    · show (processOne d q).count +
        (processFiles (l₁ ++ p :: l₂) (processOne d q).disk).count = _
      rw [hc]
      show _ = ((processOne d q).count +
        (processFiles l₁ (processOne d q).disk).count) + _
      rw [Nat.add_assoc]
      rfl
    · exact hd

/-- C7: for a path of the hardcoded list that is absent from the disk,
`main` emits the not-found message, never reads or writes that path,
leaves it absent, adds nothing to the fixed count for it, and processes
the files before and after it in list order. -/
theorem claim7_missing_file (d : Disk) (p : String) (l₁ l₂ : List String)
    (hnone : d p = none) (hsplit : files_to_fix = l₁ ++ p :: l₂) :
    Ev.notFound p ∈ (main d).events ∧
    Ev.readF p ∉ (main d).events ∧
    (∀ c, Ev.writeF p c ∉ (main d).events) ∧
    (main d).disk p = none ∧
    (main d).events = (processFiles l₁ d).events ++
      Ev.notFound p :: (processFiles l₂ (processFiles l₁ d).disk).events ∧
    (main d).count = (processFiles l₁ d).count +
      (processFiles l₂ (processFiles l₁ d).disk).count := by
  have hmain : main d = processFiles (l₁ ++ p :: l₂) d := by
    unfold main
    rw [hsplit]
  obtain ⟨he, hc, hd⟩ := processFiles_split p l₂ l₁ d hnone
  obtain ⟨h1, h2⟩ := processFiles_events_none p (l₁ ++ p :: l₂) d hnone
  rw [hmain]
  refine ⟨?_, h1, h2, ?_, he, hc⟩
  · rw [he]
    simp
  · exact processFiles_none_disk p (l₁ ++ p :: l₂) d hnone

/-- C7 witness: on an empty disk the first listed path is reported
missing. -/
theorem claim7_witness :
    (fun _ : String => (none : Option (List Char))) "concepts/templates.md" = none ∧
    files_to_fix = [] ++ "concepts/templates.md" ::
      ["concepts/prompts.md",
       "packc/explanation/compilation.md",
       "packc/explanation/pack-format.md",
       "packc/how-to/compile-packs.md",
       "packc/reference/compile-prompt.md",
       "runtime/how-to/manage-state.md",
       "runtime/explanation/middleware-design.md",
       "runtime/explanation/state-management.md",
       "workflows/deployment-workflow.md",
       "workflows/development-workflow.md"] ∧
    Ev.notFound "concepts/templates.md" ∈ (main (fun _ => none)).events ∧
    (main (fun _ => none)).disk "concepts/templates.md" = none := by
  refine ⟨rfl, rfl, ?_, ?_⟩
  · exact (claim7_missing_file (fun _ => none) "concepts/templates.md" []
      ["concepts/prompts.md",
       "packc/explanation/compilation.md",
       "packc/explanation/pack-format.md",
       "packc/how-to/compile-packs.md",
       "packc/reference/compile-prompt.md",
       "runtime/how-to/manage-state.md",
       "runtime/explanation/middleware-design.md",
       "runtime/explanation/state-management.md",
       "workflows/deployment-workflow.md",
       "workflows/development-workflow.md"] rfl rfl).1
  · exact (claim7_missing_file (fun _ => none) "concepts/templates.md" []
      ["concepts/prompts.md",
       "packc/explanation/compilation.md",
       "packc/explanation/pack-format.md",
       "packc/how-to/compile-packs.md",
       "packc/reference/compile-prompt.md",
       "runtime/how-to/manage-state.md",
       "runtime/explanation/middleware-design.md",
       "runtime/explanation/state-management.md",
       "workflows/deployment-workflow.md",
       "workflows/development-workflow.md"] rfl rfl).2.2.2.1

end FixLiquid
